import Mathlib

/-!
Verification development for the `memorymap_printer` repository
(files `memorymap_printer.py`, `mem_layout.py`, `linked_list.py`, `string_utils.py`).

The development shallowly embeds the Python sources:

* `MemoryBlock`, `MemoryLayout`, `MemoryLayout.append_mem_block`,
  `MemoryLayout.fill_gaps`, `MemoryLayout.__eq__` (the strict variant of
  `memorymap_printer.py`) over a list model of the region chain;
* the doubly linked list of `linked_list.py` over an explicit node/arena model
  (`PyLinkedList`) that keeps the `prev`/`next` pointers and the `_items`
  bookkeeping of the source, together with `MemoryLayout.merge_unused` on top
  of it;
* the renderer `MemoryLayoutPrinter` of `memorymap_printer.py` with its
  configuration objects and its `to_text` pipeline, including the exact string
  operations (centering, truncation, hex formatting, cell/border merging).

Python exceptions are modelled with `Except`: an operation that raises before
mutating any state is modelled as returning `.error e`, which leaves the
caller's data untouched (exactly the observable behaviour of the source, which
raises before its first mutation in every such path).  Python machine-free
integers are modelled by `Int`.
-/

/-! ## Memory blocks (`memorymap_printer.py`, class `MemoryBlock`) -/

/-- `MemoryBlock`: `_begin_address`, `_size`, `_identifier`, `_unused`.
`_end_address` is derived (`begin + size - 1`), see `MemoryBlock.end_address`.
`_identifier` is `None` or a string, modelled with `Option String`. -/
structure MemoryBlock where
  begin_address : Int
  size : Int
  identifier : Option String := none
  unused : Bool := false
deriving DecidableEq, Repr

/-- Derived `_end_address = _begin_address + _size - 1` (constructor, line 43). -/
def MemoryBlock.end_address (b : MemoryBlock) : Int :=
  b.begin_address + b.size - 1

/-- Errors raised by the Python sources, modelled as values. -/
inductive PyErr where
  /-- `ValueError` raised by `MemoryBlock.__init__`. -/
  | valueError
  /-- `MemoryLayoutError` (block out of layout range). -/
  | memoryLayoutError
  /-- `MemoryLayoutNoSpaceError` (block intersects another one). -/
  | noSpaceError
  /-- `TypeError` raised by the Python runtime (e.g. `list.insert` with a
  non-integer index). -/
  | typeError
  /-- `IndexError` raised by the Python runtime (sequence index out of range). -/
  | indexError
  /-- `AttributeError` raised by the Python runtime (attribute access on `None`). -/
  | attributeError
deriving DecidableEq, Repr

deriving instance DecidableEq for Except

/-- `MemoryBlock.__init__`: raises `ValueError` when `size <= 0 or
begin_address < 0`, otherwise constructs the block. -/
def mkMemoryBlock (begin_address size : Int) (identifier : Option String := none)
    (unused : Bool := false) : Except PyErr MemoryBlock :=
  if size ≤ 0 ∨ begin_address < 0 then .error .valueError
  else .ok { begin_address := begin_address, size := size,
             identifier := identifier, unused := unused }

/-- `MemoryBlock.identifier()`: `'' if not self._identifier else self._identifier`
(`None` and the empty string are both falsy, and both map to `''`). -/
def MemoryBlock.identifierStr (b : MemoryBlock) : String :=
  match b.identifier with
  | none => ""
  | some s => s

/-- `MemoryBlock.__eq__`: equal iff `begin_address` and `size` match
(identifier and unused flag are not compared). -/
def blockEqPy (a b : MemoryBlock) : Bool :=
  a.begin_address == b.begin_address && a.size == b.size

/-! ## Memory layout over the forward chain (`memorymap_printer.py`, class `MemoryLayout`)

`MemoryLayout.regions` is a `LinkedList`.  `append_mem_block` and `fill_gaps`
only ever read `head()`, `tail()` (which walks `next` pointers from the head),
`count()` and `next()`, and only ever mutate through `append` (empty list),
`insert_before(first_region, ...)` (the head, whose `_prev` is always `None`)
and `insert_after(item, ...)` (which correctly links `item._next` and the new
node's `_next`).  All of those maintain the forward `next` chain exactly as
list insertion does, so for these operations the region store is embedded as
the forward chain (`List MemoryBlock`) plus the length of the `_items` list
(`items_count`, which `count()` returns and which never shrinks).  The
pointer-level model `PyLinkedList` further below is used for the operations
where the backward `prev` pointers matter (`remove`, `merge_unused`). -/

/-- `MemoryLayout`: `_begin_address`, `_size`, `regions` (forward chain) and
`len(regions._items)` (`items_count`). `_end_address` is derived. -/
structure MemoryLayout where
  begin_address : Int
  size : Int
  regions : List MemoryBlock := []
  items_count : Nat := 0
deriving DecidableEq, Repr

/-- `MemoryLayout.__init__(begin_address, size)` (no validation in the source). -/
def mkMemoryLayout (begin_address size : Int) : MemoryLayout :=
  { begin_address := begin_address, size := size }

/-- Derived `_end_address = _begin_address + _size - 1`. -/
def MemoryLayout.end_address (ml : MemoryLayout) : Int :=
  ml.begin_address + ml.size - 1

/-- `MemoryLayout.to_list()` — materialises the region chain in order. -/
def MemoryLayout.to_list (ml : MemoryLayout) : List MemoryBlock :=
  ml.regions

/-- The scan of `append_mem_block` (lines 195-203): wandering pair
`(low_region, high_region)` over consecutive chain members; when the new block
fits strictly between them it is inserted after `low_region` (i.e. right
before `high_region` in the forward chain).  Returns the new chain suffix
after `low_region`, or `none` when the loop falls off the end (after which
the source raises `MemoryLayoutNoSpaceError`). -/
def scanInsert (nb : MemoryBlock) : MemoryBlock → List MemoryBlock →
    Option (List MemoryBlock)
  | _, [] => none
  | low, high :: rest =>
    if nb.begin_address > low.end_address ∧ nb.end_address < high.begin_address then
      some (nb :: high :: rest)
    else
      (scanInsert nb high rest).map (fun l => high :: l)

/-- `MemoryLayout.append_mem_block` (strict variant, `memorymap_printer.py`
lines 170-206).  Every `raise` in the source happens before any mutation, so
an `.error` result leaves the layout exactly as it was. -/
def MemoryLayout.append_mem_block (ml : MemoryLayout) (nb : MemoryBlock) :
    Except PyErr MemoryLayout :=
  if nb.begin_address < ml.begin_address ∨ nb.end_address > ml.end_address then
    .error .memoryLayoutError
  else
    match ml.regions with
    | [] =>
      -- `if first_region: ... else: self.regions.append(new_mem_block)`
      .ok { ml with regions := [nb], items_count := ml.items_count + 1 }
    | first :: rest =>
      if nb.end_address < first.begin_address then
        -- `self.regions.insert_before(first_region, new_mem_block)`
        .ok { ml with regions := nb :: first :: rest,
                      items_count := ml.items_count + 1 }
      else
        -- `high_region = self.regions.tail()` (walks the forward chain)
        let tl := (first :: rest).getLast (List.cons_ne_nil _ _)
        if nb.begin_address > tl.end_address then
          -- `self.regions.insert_after(high_region, new_mem_block)`
          .ok { ml with regions := (first :: rest) ++ [nb],
                        items_count := ml.items_count + 1 }
        else if ml.items_count = 1 then
          .error .noSpaceError
        else
          match scanInsert nb first rest with
          | some l =>
            .ok { ml with regions := first :: l,
                          items_count := ml.items_count + 1 }
          | none => .error .noSpaceError

/-- Appending a whole list of blocks one by one (the usage pattern of the
module docstring: construct the layout, then `append_mem_block` each block). -/
def appendAll (ml : MemoryLayout) : List MemoryBlock → Except PyErr MemoryLayout
  | [] => .ok ml
  | b :: bs => (ml.append_mem_block b).bind (fun ml' => appendAll ml' bs)

/-- The loop of `fill_gaps` (lines 218-230).  `region` walks the original
chain: every synthesized gap is inserted strictly before the current `region`
node (it covers addresses below `region.data().begin_address()`), so
`region.next()` always steps to the next block that was present when the loop
reached `region`; the walk is therefore embedded as structural recursion over
the suffix of the original chain. -/
def fillGapsGo (ml : MemoryLayout) (free_address : Int) :
    List MemoryBlock → Except PyErr MemoryLayout
  | [] => .ok ml   -- unreachable: the loop is entered with `region` non-null
  | r :: rest => do
    let gap_size := r.begin_address - free_address
    let ml ←
      if gap_size > 0 then do
        let gap ← mkMemoryBlock free_address gap_size none true
        ml.append_mem_block gap
      else
        pure ml
    let free_address := r.end_address + 1
    if free_address > ml.end_address then
      pure ml   -- `break`
    else
      match rest with
      | [] => do
        -- `region = region.next()` is `None`: append the final gap and break
        let gap_size := ml.end_address - free_address + 1
        let gap ← mkMemoryBlock free_address gap_size none true
        ml.append_mem_block gap
      | r' :: rest' => fillGapsGo ml free_address (r' :: rest')

/-- `MemoryLayout.fill_gaps` (lines 208-230). -/
def MemoryLayout.fill_gaps (ml : MemoryLayout) : Except PyErr MemoryLayout :=
  match ml.regions with
  | [] => do
    let gap ← mkMemoryBlock ml.begin_address ml.size none true
    ml.append_mem_block gap
  | r :: rest => fillGapsGo ml ml.begin_address (r :: rest)

/-! ### Specification-side order relations on blocks -/

/-- `a` lies strictly before `b` (their integer ranges are separated). -/
def sepB (a b : MemoryBlock) : Prop := a.end_address < b.begin_address

instance (a b : MemoryBlock) : Decidable (sepB a b) :=
  inferInstanceAs (Decidable (a.end_address < b.begin_address))

/-- The inclusive integer ranges of `a` and `b` are disjoint. -/
def disjB (a b : MemoryBlock) : Prop :=
  a.end_address < b.begin_address ∨ b.end_address < a.begin_address

instance (a b : MemoryBlock) : Decidable (disjB a b) :=
  inferInstanceAs (Decidable (_ ∨ _))

/-- `b` fits inside the fixed bounds of the layout `[begin, begin+size-1]`. -/
def inBoundsOf (begin_address size : Int) (b : MemoryBlock) : Prop :=
  begin_address ≤ b.begin_address ∧ b.end_address ≤ begin_address + size - 1

instance (ba sz : Int) (b : MemoryBlock) : Decidable (inBoundsOf ba sz b) :=
  inferInstanceAs (Decidable (_ ∧ _))

/-- A constructible block (`MemoryBlock.__init__` succeeded): positive size,
non-negative start. -/
def validB (b : MemoryBlock) : Prop := 0 < b.size ∧ 0 ≤ b.begin_address

instance (b : MemoryBlock) : Decidable (validB b) :=
  inferInstanceAs (Decidable (_ ∧ _))

/-- Sorted insertion by begin address: the position `append_mem_block`
realises for a block disjoint from a sorted, separated chain. -/
def sortedInsertBlk (nb : MemoryBlock) : List MemoryBlock → List MemoryBlock
  | [] => [nb]
  | x :: xs =>
    if nb.begin_address ≤ x.begin_address then nb :: x :: xs
    else x :: sortedInsertBlk nb xs

/-! ### Basic facts about separated chains -/

theorem validB_begin_le_end {b : MemoryBlock} (h : 0 < b.size) :
    b.begin_address ≤ b.end_address := by
  unfold MemoryBlock.end_address; omega

/-- In a separated chain headed by `a`, every later block lies strictly after `a`. -/
theorem chain_sep_head_rel :
    ∀ {l : List MemoryBlock} {a : MemoryBlock}, List.Chain' sepB (a :: l) →
      (∀ b ∈ a :: l, 0 < b.size) → ∀ b ∈ l, sepB a b := by
  intro l
  induction l with
  | nil => intro a _ _ b hb; cases hb
  | cons c l' ih =>
    intro a hch hv b hb
    rw [List.chain'_cons] at hch
    rcases List.mem_cons.1 hb with rfl | hb
    · exact hch.1
    · have hcb : sepB c b := ih hch.2 (fun x hx => hv x (List.mem_cons_of_mem _ hx)) b hb
      have hc : 0 < c.size := hv c (by simp)
      unfold sepB at *
      have := validB_begin_le_end hc
      omega

/-- Every member's begin address is at least the head's begin address. -/
theorem chain_sep_head_begin_le {l : List MemoryBlock} {a c : MemoryBlock}
    (hch : List.Chain' sepB (a :: l)) (hv : ∀ b ∈ a :: l, 0 < b.size)
    (hc : c ∈ a :: l) : a.begin_address ≤ c.begin_address := by
  rcases List.mem_cons.1 hc with rfl | hc
  · omega
  · have := chain_sep_head_rel hch hv c hc
    have ha : 0 < a.size := hv a (by simp)
    have := validB_begin_le_end ha
    unfold sepB at *; omega

/-- Every member's end address is at most the last element's end address. -/
theorem chain_sep_end_le_getLast :
    ∀ {l : List MemoryBlock} (h : l ≠ []), List.Chain' sepB l →
      (∀ b ∈ l, 0 < b.size) → ∀ c ∈ l, c.end_address ≤ (l.getLast h).end_address := by
  intro l
  induction l with
  | nil => intro h; exact absurd rfl h
  | cons a l' ih =>
    intro _ hch hv c hc
    cases l' with
    | nil =>
      rcases List.mem_cons.1 hc with rfl | hc
      · simp
      · cases hc
    | cons d t =>
      rw [List.getLast_cons_cons]
      have hch' : List.Chain' sepB (d :: t) := (List.chain'_cons.1 hch).2
      have hv' : ∀ b ∈ d :: t, 0 < b.size :=
        fun x hx => hv x (List.mem_cons_of_mem _ hx)
      rcases List.mem_cons.1 hc with rfl | hc
      · have had : sepB c d := (List.chain'_cons.1 hch).1
        have : d.end_address ≤ ((d :: t).getLast (List.cons_ne_nil _ _)).end_address :=
          ih (List.cons_ne_nil _ _) hch' hv' d (by simp)
        have hd : 0 < d.size := hv' d (by simp)
        have := validB_begin_le_end hd
        unfold sepB at had; omega
      · exact ih (List.cons_ne_nil _ _) hch' hv' c hc

/-- Every member's begin address is at most the last element's end address. -/
theorem chain_sep_begin_le_getLast {l : List MemoryBlock} (h : l ≠ [])
    (hch : List.Chain' sepB l) (hv : ∀ b ∈ l, 0 < b.size) {c : MemoryBlock}
    (hc : c ∈ l) : c.begin_address ≤ (l.getLast h).end_address := by
  have h1 := chain_sep_end_le_getLast h hch hv c hc
  have h2 := validB_begin_le_end (hv c hc)
  omega

/-! ### `sortedInsertBlk` facts -/

theorem sortedInsertBlk_perm (nb : MemoryBlock) :
    ∀ l : List MemoryBlock, List.Perm (sortedInsertBlk nb l) (nb :: l) := by
  intro l
  induction l with
  | nil => simp [sortedInsertBlk]
  | cons x xs ih =>
    unfold sortedInsertBlk
    by_cases h : nb.begin_address ≤ x.begin_address
    · simp [h]
    · simp only [h, if_false]
      exact (ih.cons x).trans (List.Perm.swap _ _ _)

theorem sortedInsertBlk_mem {nb y : MemoryBlock} {l : List MemoryBlock}
    (h : y ∈ sortedInsertBlk nb l) : y = nb ∨ y ∈ l := by
  have := (sortedInsertBlk_perm nb l).mem_iff.1 h
  simpa using this

/-- Inserting a block that is separated from everything keeps the chain separated. -/
theorem sortedInsertBlk_chain {nb : MemoryBlock} :
    ∀ {l : List MemoryBlock}, List.Chain' sepB l → (∀ b ∈ l, 0 < b.size) →
      0 < nb.size → (∀ c ∈ l, disjB nb c) →
      List.Chain' sepB (sortedInsertBlk nb l) := by
  intro l
  induction l with
  | nil => intro _ _ _ _; simp [sortedInsertBlk]
  | cons x xs ih =>
    intro hch hv hnb hd
    have hdx := hd x (by simp)
    have hx : 0 < x.size := hv x (by simp)
    unfold sortedInsertBlk
    by_cases h : nb.begin_address ≤ x.begin_address
    · simp only [h, if_true]
      rw [List.chain'_cons]
      refine ⟨?_, hch⟩
      rcases hdx with h1 | h2
      · exact h1
      · exfalso; have := validB_begin_le_end hx; unfold sepB at *; omega
    · simp only [h, if_false]
      have hxnb : sepB x nb := by
        rcases hdx with h1 | h2
        · exfalso; have := validB_begin_le_end hnb; unfold sepB at *; omega
        · exact h2
      rw [List.chain'_cons']
      constructor
      · intro y hy
        cases xs with
        | nil => simp [sortedInsertBlk] at hy; subst hy; exact hxnb
        | cons z zs =>
          unfold sortedInsertBlk at hy
          by_cases h2 : nb.begin_address ≤ z.begin_address
          · simp [h2] at hy; subst hy; exact hxnb
          · simp [h2] at hy; subst hy; exact (List.chain'_cons.1 hch).1
      · exact ih (List.chain'_cons'.1 hch).2 (fun b hb => hv b (List.mem_cons_of_mem _ hb))
          hnb (fun c hc => hd c (List.mem_cons_of_mem _ hc))

/-! ### Characterisation of `append_mem_block` on separated chains -/

theorem sortedInsertBlk_cons_le {nb x : MemoryBlock} {xs : List MemoryBlock}
    (h : nb.begin_address ≤ x.begin_address) :
    sortedInsertBlk nb (x :: xs) = nb :: x :: xs := by
  rw [sortedInsertBlk, if_pos h]

theorem sortedInsertBlk_cons_gt {nb x : MemoryBlock} {xs : List MemoryBlock}
    (h : ¬ nb.begin_address ≤ x.begin_address) :
    sortedInsertBlk nb (x :: xs) = x :: sortedInsertBlk nb xs := by
  rw [sortedInsertBlk, if_neg h]

theorem sortedInsertBlk_append_last {nb : MemoryBlock} :
    ∀ {l : List MemoryBlock}, (∀ c ∈ l, ¬ nb.begin_address ≤ c.begin_address) →
      sortedInsertBlk nb l = l ++ [nb] := by
  intro l
  induction l with
  | nil => intro _; rfl
  | cons x xs ih =>
    intro hall
    rw [sortedInsertBlk_cons_gt (hall x (by simp)),
        ih (fun c hc => hall c (List.mem_cons_of_mem _ hc))]
    rfl

/-- On a separated chain whose last element still reaches past the new block's
begin address, the scan of `append_mem_block` finds the unique slot and the
resulting forward chain is the sorted insertion. -/
theorem scanInsert_finds {nb : MemoryBlock} :
    ∀ {rest : List MemoryBlock} {low : MemoryBlock},
      List.Chain' sepB (low :: rest) → (∀ b ∈ low :: rest, 0 < b.size) →
      0 < nb.size → (∀ c ∈ low :: rest, disjB nb c) →
      low.end_address < nb.begin_address →
      nb.begin_address ≤ ((low :: rest).getLast (List.cons_ne_nil _ _)).end_address →
      scanInsert nb low rest = some (sortedInsertBlk nb rest) := by
  intro rest
  induction rest with
  | nil =>
    intro low _ _ _ _ hlow hlast
    simp only [List.getLast_singleton] at hlast
    omega
  | cons high rest' ih =>
    intro low hch hv hnb hd hlow hlast
    have hdh := hd high (by simp)
    have hh : 0 < high.size := hv high (by simp)
    unfold scanInsert
    rcases hdh with h1 | h2
    · -- `nb` ends strictly before `high` begins: the slot is here.
      have hcond : nb.begin_address > low.end_address ∧
          nb.end_address < high.begin_address := ⟨hlow, h1⟩
      simp only [hcond, and_self, if_true]
      have : nb.begin_address ≤ high.begin_address := by
        have := validB_begin_le_end hnb; omega
      rw [sortedInsertBlk_cons_le this]
    · -- `high` ends strictly before `nb` begins: keep scanning.
      have hcond : ¬(nb.begin_address > low.end_address ∧
          nb.end_address < high.begin_address) := by
        intro h
        have := validB_begin_le_end hnb
        have := validB_begin_le_end hh
        omega
      simp only [hcond, if_false]
      have hch' : List.Chain' sepB (high :: rest') := (List.chain'_cons.1 hch).2
      have hv' : ∀ b ∈ high :: rest', 0 < b.size :=
        fun x hx => hv x (List.mem_cons_of_mem _ hx)
      have hd' : ∀ c ∈ high :: rest', disjB nb c :=
        fun x hx => hd x (List.mem_cons_of_mem _ hx)
      have hlast' : nb.begin_address ≤
          ((high :: rest').getLast (List.cons_ne_nil _ _)).end_address := by
        rw [List.getLast_cons_cons] at hlast; exact hlast
      rw [ih hch' hv' hnb hd' h2 hlast']
      have : ¬ nb.begin_address ≤ high.begin_address := by
        have := validB_begin_le_end hh; omega
      rw [sortedInsertBlk_cons_gt this]
      rfl

/-- If some chain member intersects `nb` (or `nb` starts at/before the current
`low_region`'s end), the scan falls off the end of the chain. -/
theorem scanInsert_none {nb : MemoryBlock} :
    ∀ {rest : List MemoryBlock} {low : MemoryBlock},
      List.Chain' sepB (low :: rest) → (∀ b ∈ low :: rest, 0 < b.size) →
      0 < nb.size →
      (nb.begin_address ≤ low.end_address ∨ ∃ c ∈ low :: rest, ¬ disjB nb c) →
      scanInsert nb low rest = none := by
  intro rest
  induction rest with
  | nil => intro low _ _ _ _; rfl
  | cons high rest' ih =>
    intro low hch hv hnb hyp
    have hh : 0 < high.size := hv high (by simp)
    have hsep : sepB low high := (List.chain'_cons.1 hch).1
    unfold scanInsert
    have hch' : List.Chain' sepB (high :: rest') := (List.chain'_cons.1 hch).2
    have hv' : ∀ b ∈ high :: rest', 0 < b.size :=
      fun x hx => hv x (List.mem_cons_of_mem _ hx)
    have hcond : ¬(nb.begin_address > low.end_address ∧
        nb.end_address < high.begin_address) := by
      rcases hyp with hle | ⟨c, hc, hcd⟩
      · intro h; omega
      · intro h
        rcases List.mem_cons.1 hc with rfl | hc
        · -- `c = low` intersects `nb`, so `nb` cannot begin after `low` ends
          unfold disjB at hcd
          push_neg at hcd
          omega
        · rcases List.mem_cons.1 hc with rfl | hc
          · unfold disjB at hcd; push_neg at hcd; omega
          · -- `c` lies at or after `high`, so `nb.end ≥ c.begin ≥ high.begin`
            have := chain_sep_head_begin_le hch' hv' (List.mem_cons_of_mem _ hc)
            unfold disjB at hcd; push_neg at hcd
            omega
    simp only [hcond, if_false]
    have hyp' : nb.begin_address ≤ high.end_address ∨
        ∃ c ∈ high :: rest', ¬ disjB nb c := by
      rcases hyp with hle | ⟨c, hc, hcd⟩
      · left
        have := validB_begin_le_end hh
        unfold sepB at hsep; omega
      · rcases List.mem_cons.1 hc with rfl | hc
        · left
          unfold disjB at hcd; push_neg at hcd
          have := validB_begin_le_end hh
          unfold sepB at hsep; omega
        · exact Or.inr ⟨c, hc, hcd⟩
    rw [ih hch' hv' hnb hyp']
    rfl

/-- `append_mem_block` of a block that is in bounds and disjoint from every
chain member succeeds and realises exactly the sorted insertion by begin
address (and bumps `count()` by one). -/
theorem append_mem_block_ok {ml : MemoryLayout} {nb : MemoryBlock}
    (hch : List.Chain' sepB ml.regions) (hv : ∀ b ∈ ml.regions, 0 < b.size)
    (hcnt : ml.regions.length ≤ ml.items_count)
    (hnb : 0 < nb.size) (hib : inBoundsOf ml.begin_address ml.size nb)
    (hd : ∀ c ∈ ml.regions, disjB nb c) :
    ml.append_mem_block nb =
      .ok { ml with regions := sortedInsertBlk nb ml.regions,
                    items_count := ml.items_count + 1 } := by
  have hibc : ¬(nb.begin_address < ml.begin_address ∨
      nb.end_address > ml.end_address) := by
    unfold inBoundsOf at hib
    unfold MemoryLayout.end_address
    omega
  unfold MemoryLayout.append_mem_block
  simp only [hibc, if_false]
  cases hreg : ml.regions with
  | nil => simp [sortedInsertBlk]
  | cons first rest =>
    rw [hreg] at hch hv hd hcnt
    have hfirst : 0 < first.size := hv first (by simp)
    have hdf := hd first (by simp)
    by_cases hbefore : nb.end_address < first.begin_address
    · have hle : nb.begin_address ≤ first.begin_address := by
        have := validB_begin_le_end hnb; omega
      simp only [hbefore, if_true]
      rw [sortedInsertBlk_cons_le hle]
    · simp only [hbefore, if_false]
      -- `nb` does not fit before the head, so the head ends before `nb` begins
      have hafterf : first.end_address < nb.begin_address := by
        rcases hdf with h1 | h2
        · exact absurd h1 hbefore
        · exact h2
      by_cases hafter : nb.begin_address >
          ((first :: rest).getLast (List.cons_ne_nil _ _)).end_address
      · simp only [hafter, if_true]
        -- every member begins (and ends) before `nb`: sorted insert appends.
        have hall : ∀ c ∈ first :: rest, ¬ nb.begin_address ≤ c.begin_address := by
          intro c hc
          have := chain_sep_begin_le_getLast (List.cons_ne_nil _ _) hch hv hc
          omega
        rw [sortedInsertBlk_append_last hall]
      · simp only [hafter, if_false]
        push_neg at hafter
        -- the scan succeeds; in particular the chain has at least two members
        have hscan := scanInsert_finds hch hv hnb hd
          hafterf hafter
        rw [hscan]
        have hrest : rest ≠ [] := by
          intro h
          subst h
          simp only [List.getLast_singleton] at hafter
          omega
        have hcnt1 : ¬ ml.items_count = 1 ∨ ml.items_count = 1 := by tauto
        rcases hcnt1 with hc1 | hc1
        · simp only [hc1, if_false]
          have : ¬ nb.begin_address ≤ first.begin_address := by
            have := validB_begin_le_end hfirst; omega
          rw [sortedInsertBlk_cons_gt this]
        · -- `count() == 1` with at least two chain members cannot occur in a
          -- reachable state: every chain node is recorded in `_items`.
          exfalso
          cases rest with
          | nil => exact hrest rfl
          | cons d t => simp at hcnt; omega

/-- A successful scan always realises the sorted-insert position (no
disjointness assumption: whatever slot the scan accepts is the sorted one). -/
theorem scanInsert_some_sorted {nb : MemoryBlock} :
    ∀ {rest : List MemoryBlock} {low : MemoryBlock} {res : List MemoryBlock},
      List.Chain' sepB (low :: rest) → (∀ b ∈ low :: rest, 0 < b.size) →
      0 < nb.size → scanInsert nb low rest = some res →
      res = sortedInsertBlk nb rest ∧ low.end_address < nb.begin_address := by
  intro rest
  induction rest with
  | nil => intro low res _ _ _ h; cases h
  | cons high rest' ih =>
    intro low res hch hv hnb hscan
    have hh : 0 < high.size := hv high (by simp)
    have hsep : sepB low high := (List.chain'_cons.1 hch).1
    unfold scanInsert at hscan
    by_cases hcond : nb.begin_address > low.end_address ∧
        nb.end_address < high.begin_address
    · rw [if_pos hcond] at hscan
      simp only [Option.some.injEq] at hscan
      subst hscan
      have : nb.begin_address ≤ high.begin_address := by
        have := validB_begin_le_end hnb; omega
      exact ⟨(sortedInsertBlk_cons_le this).symm, hcond.1⟩
    · rw [if_neg hcond, Option.map_eq_some'] at hscan
      obtain ⟨res', hres', rfl⟩ := hscan
      have hch' : List.Chain' sepB (high :: rest') := (List.chain'_cons.1 hch).2
      have hv' : ∀ b ∈ high :: rest', 0 < b.size :=
        fun x hx => hv x (List.mem_cons_of_mem _ hx)
      obtain ⟨hres, hhigh⟩ := ih hch' hv' hnb hres'
      have hgt : ¬ nb.begin_address ≤ high.begin_address := by
        have := validB_begin_le_end hh; omega
      refine ⟨?_, ?_⟩
      · rw [sortedInsertBlk_cons_gt hgt, hres]
      · have := validB_begin_le_end hh
        unfold sepB at hsep; omega

/-- `append_mem_block` of an in-bounds block whose range intersects some chain
member raises `MemoryLayoutNoSpaceError` (before any mutation). -/
theorem append_mem_block_overlap {ml : MemoryLayout} {nb c : MemoryBlock}
    (hch : List.Chain' sepB ml.regions) (hv : ∀ b ∈ ml.regions, 0 < b.size)
    (hnb : 0 < nb.size) (hib : inBoundsOf ml.begin_address ml.size nb)
    (hc : c ∈ ml.regions) (hcd : ¬ disjB nb c) :
    ml.append_mem_block nb = .error .noSpaceError := by
  have hibc : ¬(nb.begin_address < ml.begin_address ∨
      nb.end_address > ml.end_address) := by
    unfold inBoundsOf at hib
    unfold MemoryLayout.end_address
    omega
  unfold MemoryLayout.append_mem_block
  simp only [hibc, if_false]
  cases hreg : ml.regions with
  | nil => rw [hreg] at hc; cases hc
  | cons first rest =>
    rw [hreg] at hch hv hc
    have hfirst : 0 < first.size := hv first (by simp)
    have hcs : 0 < c.size := hv c hc
    have hbefore : ¬ nb.end_address < first.begin_address := by
      intro h
      have := chain_sep_head_begin_le hch hv hc
      unfold disjB at hcd; push_neg at hcd
      omega
    simp only [hbefore, if_false]
    have hafter : ¬ nb.begin_address >
        ((first :: rest).getLast (List.cons_ne_nil _ _)).end_address := by
      intro h
      have := chain_sep_end_le_getLast (List.cons_ne_nil _ _) hch hv c hc
      unfold disjB at hcd; push_neg at hcd
      omega
    simp only [hafter, if_false]
    by_cases hc1 : ml.items_count = 1
    · simp [hc1]
    · simp only [hc1, if_false]
      rw [scanInsert_none hch hv hnb (Or.inr ⟨c, hc, hcd⟩)]

/-- C2 helper: whatever `append_mem_block` accepts lands at the sorted-insert
position (no disjointness assumption on the new block). -/
theorem append_mem_block_ok_shape {ml ml' : MemoryLayout} {nb : MemoryBlock}
    (hch : List.Chain' sepB ml.regions) (hv : ∀ b ∈ ml.regions, 0 < b.size)
    (hnb : 0 < nb.size)
    (hok : ml.append_mem_block nb = .ok ml') :
    ml'.begin_address = ml.begin_address ∧ ml'.size = ml.size ∧
      ml'.items_count = ml.items_count + 1 ∧
      ml'.regions = sortedInsertBlk nb ml.regions := by
  unfold MemoryLayout.append_mem_block at hok
  by_cases hibc : nb.begin_address < ml.begin_address ∨
      nb.end_address > ml.end_address
  · simp [hibc] at hok
  · simp only [hibc, if_false] at hok
    cases hreg : ml.regions with
    | nil =>
      rw [hreg] at hok
      simp only [Except.ok.injEq] at hok
      subst hok
      exact ⟨rfl, rfl, rfl, by simp [sortedInsertBlk]⟩
    | cons first rest =>
      rw [hreg] at hok hch hv
      have hfirst : 0 < first.size := hv first (by simp)
      by_cases hbefore : nb.end_address < first.begin_address
      · simp only [hbefore, if_true, Except.ok.injEq] at hok
        subst hok
        have hle : nb.begin_address ≤ first.begin_address := by
          have := validB_begin_le_end hnb; omega
        exact ⟨rfl, rfl, rfl, (sortedInsertBlk_cons_le hle).symm⟩
      · simp only [hbefore, if_false] at hok
        by_cases hafter : nb.begin_address >
            ((first :: rest).getLast (List.cons_ne_nil _ _)).end_address
        · simp only [hafter, if_true, Except.ok.injEq] at hok
          subst hok
          have hall : ∀ x ∈ first :: rest,
              ¬ nb.begin_address ≤ x.begin_address := by
            intro x hx
            have := chain_sep_begin_le_getLast (List.cons_ne_nil _ _) hch hv hx
            omega
          exact ⟨rfl, rfl, rfl, (sortedInsertBlk_append_last hall).symm⟩
        · simp only [hafter, if_false] at hok
          by_cases hc1 : ml.items_count = 1
          · simp [hc1] at hok
          · simp only [hc1, if_false] at hok
            cases hscan : scanInsert nb first rest with
            | none => rw [hscan] at hok; cases hok
            | some res =>
              rw [hscan] at hok
              simp only [Except.ok.injEq] at hok
              subst hok
              obtain ⟨hres, hlt⟩ := scanInsert_some_sorted hch hv hnb hscan
              have hgt : ¬ nb.begin_address ≤ first.begin_address := by
                have := validB_begin_le_end hfirst; omega
              refine ⟨rfl, rfl, rfl, ?_⟩
              rw [sortedInsertBlk_cons_gt hgt, hres]

theorem disjB_symm {a b : MemoryBlock} (h : disjB a b) : disjB b a := by
  unfold disjB at *; tauto

/-- Appending a list of pairwise-disjoint, in-bounds blocks one by one
succeeds and accumulates exactly the sorted arrangement of old and new blocks. -/
theorem appendAll_ok :
    ∀ {l : List MemoryBlock} {ml : MemoryLayout},
      List.Chain' sepB ml.regions → (∀ c ∈ ml.regions, 0 < c.size) →
      ml.regions.length ≤ ml.items_count →
      (∀ b ∈ l, 0 < b.size) → (∀ b ∈ l, inBoundsOf ml.begin_address ml.size b) →
      (∀ b ∈ l, ∀ c ∈ ml.regions, disjB b c) → l.Pairwise disjB →
      ∃ ml', appendAll ml l = .ok ml' ∧
        ml'.begin_address = ml.begin_address ∧ ml'.size = ml.size ∧
        ml'.items_count = ml.items_count + l.length ∧
        List.Perm ml'.regions (ml.regions ++ l) ∧
        List.Chain' sepB ml'.regions ∧ (∀ c ∈ ml'.regions, 0 < c.size) ∧
        ml'.regions.length ≤ ml'.items_count := by
  intro l
  induction l with
  | nil =>
    intro ml hch hv hcnt _ _ _ _
    exact ⟨ml, rfl, rfl, rfl, by simp, by simp, hch, hv, hcnt⟩
  | cons b bs ih =>
    intro ml hch hv hcnt hlv hlib hld hlp
    have hb : 0 < b.size := hlv b (by simp)
    have hbib := hlib b (by simp)
    have hbd : ∀ c ∈ ml.regions, disjB b c := fun c hc => hld b (by simp) c hc
    have hab := append_mem_block_ok hch hv hcnt hb hbib hbd
    set ml1 : MemoryLayout :=
      { ml with regions := sortedInsertBlk b ml.regions,
                items_count := ml.items_count + 1 } with hml1
    have hperm1 : List.Perm ml1.regions (b :: ml.regions) :=
      sortedInsertBlk_perm b ml.regions
    have hch1 : List.Chain' sepB ml1.regions :=
      sortedInsertBlk_chain hch hv hb hbd
    have hv1 : ∀ c ∈ ml1.regions, 0 < c.size := by
      intro c hc
      rcases sortedInsertBlk_mem hc with rfl | hc
      · exact hb
      · exact hv c hc
    have hcnt1 : ml1.regions.length ≤ ml1.items_count := by
      have := hperm1.length_eq
      simp only [hml1, List.length_cons] at this ⊢
      omega
    have hpc := List.pairwise_cons.1 hlp
    obtain ⟨ml', hap, hb', hs', hc', hp', hch', hv', hcnt'⟩ :=
      ih hch1 hv1 hcnt1
        (fun x hx => hlv x (List.mem_cons_of_mem _ hx))
        (fun x hx => hlib x (List.mem_cons_of_mem _ hx))
        (by
          intro x hx c hc
          rcases sortedInsertBlk_mem hc with rfl | hc
          · exact disjB_symm (hpc.1 x hx)
          · exact hld x (List.mem_cons_of_mem _ hx) c hc)
        hpc.2
    refine ⟨ml', ?_, hb', hs', ?_, ?_, hch', hv', hcnt'⟩
    · show (ml.append_mem_block b).bind (fun m => appendAll m bs) = .ok ml'
      rw [hab]
      exact hap
    · simp only [hc', hml1, List.length_cons]
      omega
    · refine hp'.trans ?_
      refine (hperm1.append_right bs).trans ?_
      exact List.perm_middle.symm

/-- A separated chain of positive-size blocks is strictly sorted by begin
address. -/
theorem chain_sep_pairwise_begin :
    ∀ {l : List MemoryBlock}, List.Chain' sepB l → (∀ b ∈ l, 0 < b.size) →
      List.Pairwise (fun a b => a.begin_address < b.begin_address) l := by
  intro l
  induction l with
  | nil => intro _ _; exact List.Pairwise.nil
  | cons a t ih =>
    intro hch hv
    refine List.pairwise_cons.2 ⟨?_, ?_⟩
    · intro b hb
      have := chain_sep_head_rel hch hv b hb
      have := validB_begin_le_end (hv a (by simp))
      unfold sepB at *; omega
    · exact ih ((List.chain'_cons'.1 hch).2) (fun x hx => hv x (List.mem_cons_of_mem _ hx))

instance : IsAntisymm MemoryBlock (fun a b => a.begin_address < b.begin_address) :=
  ⟨fun _ _ h1 h2 => absurd h2 (by omega)⟩

/-- **C2** — For every layout whose region chain is separated and sorted (the
invariant of all reachable layouts), `append_mem_block` of an in-bounds block
that intersects an existing block raises `MemoryLayoutNoSpaceError`, and
every successful call inserts the block at exactly the sorted position (and
bumps `count()` by one, leaving all other attributes unchanged).  A failed
call is modelled as `.error`, which carries no mutated layout: every `raise`
in the source fires before the first mutation, so `to_list()` observes the
identical sequence before and after a failed call. -/
theorem claim_C2_append_overlap_rejected (ml : MemoryLayout) (nb : MemoryBlock)
    (hch : List.Chain' sepB ml.to_list) (hv : ∀ b ∈ ml.to_list, 0 < b.size)
    (hnb : 0 < nb.size) :
    (∀ c ∈ ml.to_list, ¬ disjB nb c → inBoundsOf ml.begin_address ml.size nb →
      ml.append_mem_block nb = .error .noSpaceError) ∧
    (∀ ml', ml.append_mem_block nb = .ok ml' →
      ml'.to_list = sortedInsertBlk nb ml.to_list ∧
      ml'.begin_address = ml.begin_address ∧ ml'.size = ml.size ∧
      ml'.items_count = ml.items_count + 1) := by
  constructor
  · intro c hc hcd hib
    exact append_mem_block_overlap hch hv hnb hib hc hcd
  · intro ml' hok
    obtain ⟨h1, h2, h3, h4⟩ := append_mem_block_ok_shape hch hv hnb hok
    exact ⟨h4, h1, h2, h3⟩

/-- Witness for C2 at a concrete input: a layout `[0,7]` holding the block
`(0,4)`; appending the exactly-overlapping block `(0,4)` raises
`MemoryLayoutNoSpaceError`. -/
theorem claim_C2_witness :
    (List.Chain' sepB (MemoryLayout.mk 0 8 [MemoryBlock.mk 0 4 (some "A") false] 1).to_list ∧
     (∀ b ∈ (MemoryLayout.mk 0 8 [MemoryBlock.mk 0 4 (some "A") false] 1).to_list, 0 < b.size) ∧
     ¬ disjB (MemoryBlock.mk 0 4 none false) (MemoryBlock.mk 0 4 (some "A") false) ∧
     inBoundsOf 0 8 (MemoryBlock.mk 0 4 none false)) ∧
    (MemoryLayout.mk 0 8 [MemoryBlock.mk 0 4 (some "A") false] 1).append_mem_block
        (MemoryBlock.mk 0 4 none false) = .error .noSpaceError := by
  refine ⟨⟨by simp [MemoryLayout.to_list], by decide, by decide, by decide⟩, ?_⟩
  exact (claim_C2_append_overlap_rejected
      (MemoryLayout.mk 0 8 [MemoryBlock.mk 0 4 (some "A") false] 1)
      (MemoryBlock.mk 0 4 none false) (by simp [MemoryLayout.to_list]) (by decide)
      (by decide)).1
    (MemoryBlock.mk 0 4 (some "A") false) (by decide) (by decide) (by decide)

theorem MemoryLayout.ext' {a b : MemoryLayout} (h1 : a.begin_address = b.begin_address)
    (h2 : a.size = b.size) (h3 : a.regions = b.regions)
    (h4 : a.items_count = b.items_count) : a = b := by
  cases a; cases b; simp_all

/-- **C4** — appending the same finite set of pairwise non-overlapping,
in-bounds blocks in any order (any permutation) produces the same final block
sequence, sorted strictly ascending by `begin_address`. -/
theorem claim_C4_append_order_independence (ba sz : Int) (l1 l2 : List MemoryBlock)
    (hperm : List.Perm l1 l2)
    (hv : ∀ b ∈ l1, 0 < b.size)
    (hib : ∀ b ∈ l1, inBoundsOf ba sz b)
    (hdisj : l1.Pairwise disjB) :
    appendAll (mkMemoryLayout ba sz) l1 = appendAll (mkMemoryLayout ba sz) l2 ∧
    ∃ ml, appendAll (mkMemoryLayout ba sz) l1 = .ok ml ∧
      List.Pairwise (fun a b => a.begin_address < b.begin_address) ml.to_list := by
  have hv2 : ∀ b ∈ l2, 0 < b.size := fun b hb => hv b (hperm.mem_iff.mpr hb)
  have hib2 : ∀ b ∈ l2, inBoundsOf ba sz b := fun b hb => hib b (hperm.mem_iff.mpr hb)
  have hdisj2 : l2.Pairwise disjB :=
    (hperm.pairwise_iff (fun h => disjB_symm h)).mp hdisj
  obtain ⟨m1, h1ap, h1b, h1s, h1c, h1p, h1ch, h1v, _⟩ :=
    @appendAll_ok l1 (mkMemoryLayout ba sz)
      List.chain'_nil (by simp [mkMemoryLayout]) (by simp [mkMemoryLayout])
      hv hib (by simp [mkMemoryLayout]) hdisj
  obtain ⟨m2, h2ap, h2b, h2s, h2c, h2p, h2ch, h2v, _⟩ :=
    @appendAll_ok l2 (mkMemoryLayout ba sz)
      List.chain'_nil (by simp [mkMemoryLayout]) (by simp [mkMemoryLayout])
      hv2 hib2 (by simp [mkMemoryLayout]) hdisj2
  have p1 : List.Perm m1.regions l1 := by simpa [mkMemoryLayout] using h1p
  have p2 : List.Perm m2.regions l2 := by simpa [mkMemoryLayout] using h2p
  have pm : List.Perm m1.regions m2.regions :=
    p1.trans (hperm.trans p2.symm)
  have s1 := chain_sep_pairwise_begin h1ch h1v
  have s2 := chain_sep_pairwise_begin h2ch h2v
  have hreg : m1.regions = m2.regions :=
    List.eq_of_perm_of_sorted pm s1 s2
  have hml : m1 = m2 := by
    refine MemoryLayout.ext' ?_ ?_ hreg ?_
    · rw [h1b, h2b]
    · rw [h1s, h2s]
    · rw [h1c, h2c, hperm.length_eq]
  refine ⟨?_, m1, h1ap, s1⟩
  rw [h1ap, h2ap, hml]

/-- Witness for C4 at the spec's concrete example: blocks `A = (4,4)` and
`B = (0,2)` appended in either order into a `[0,7]` layout give identical
results. -/
theorem claim_C4_witness :
    (List.Perm [MemoryBlock.mk 4 4 (some "A") false, MemoryBlock.mk 0 2 (some "B") false]
        [MemoryBlock.mk 0 2 (some "B") false, MemoryBlock.mk 4 4 (some "A") false] ∧
     (∀ b ∈ [MemoryBlock.mk 4 4 (some "A") false, MemoryBlock.mk 0 2 (some "B") false],
        0 < b.size) ∧
     (∀ b ∈ [MemoryBlock.mk 4 4 (some "A") false, MemoryBlock.mk 0 2 (some "B") false],
        inBoundsOf 0 8 b) ∧
     List.Pairwise disjB
        [MemoryBlock.mk 4 4 (some "A") false, MemoryBlock.mk 0 2 (some "B") false]) ∧
    appendAll (mkMemoryLayout 0 8)
        [MemoryBlock.mk 4 4 (some "A") false, MemoryBlock.mk 0 2 (some "B") false] =
      appendAll (mkMemoryLayout 0 8)
        [MemoryBlock.mk 0 2 (some "B") false, MemoryBlock.mk 4 4 (some "A") false] := by
  refine ⟨⟨?_, by decide, by decide, ?_⟩, ?_⟩
  · exact List.Perm.swap _ _ _
  · refine List.pairwise_cons.2 ⟨?_, ?_⟩
    · intro b hb
      rcases List.mem_cons.1 hb with rfl | hb
      · decide
      · cases hb
    · simp
  · exact (claim_C4_append_order_independence 0 8 _ _ (List.Perm.swap _ _ _)
      (by decide) (by decide)
      (by
        refine List.pairwise_cons.2 ⟨?_, ?_⟩
        · intro b hb
          rcases List.mem_cons.1 hb with rfl | hb
          · decide
          · cases hb
        · simp)).1

/-! ### Exact coverage: the partition property of `fill_gaps` -/

/-- `coversB lo l hi`: the blocks of `l`, in order, tile the address range
`[lo, hi]` exactly — each block begins right where the previous one ended
(+1), the first begins at `lo`, the last ends at `hi` (and `l = []` exactly
when the range is empty, `hi = lo - 1`).  This is "zero gaps, zero overlaps,
spans exactly `[lo, hi]`". -/
def coversB : Int → List MemoryBlock → Int → Prop
  | lo, [], hi => hi = lo - 1
  | lo, b :: t, hi => b.begin_address = lo ∧ coversB (b.end_address + 1) t hi

instance instDecCoversB : ∀ (lo : Int) (l : List MemoryBlock) (hi : Int),
    Decidable (coversB lo l hi)
  | _, [], _ => inferInstanceAs (Decidable (_ = _))
  | _, b :: t, hi =>
    have : Decidable (coversB (b.end_address + 1) t hi) := instDecCoversB _ t _
    inferInstanceAs (Decidable (_ ∧ _))

theorem coversB_lo_le :
    ∀ {l : List MemoryBlock} {lo hi : Int}, coversB lo l hi →
      (∀ b ∈ l, 0 < b.size) → lo - 1 ≤ hi := by
  intro l
  induction l with
  | nil => intro lo hi h _; rw [h]
  | cons b t ih =>
    intro lo hi h hv
    obtain ⟨hb, ht⟩ := h
    have := ih ht (fun x hx => hv x (List.mem_cons_of_mem _ hx))
    have hbs : 0 < b.size := hv b (by simp)
    unfold MemoryBlock.end_address at *
    omega

theorem coversB_mem_bounds :
    ∀ {l : List MemoryBlock} {lo hi : Int}, coversB lo l hi →
      (∀ b ∈ l, 0 < b.size) →
      ∀ b ∈ l, lo ≤ b.begin_address ∧ b.end_address ≤ hi := by
  intro l
  induction l with
  | nil => intro lo hi _ _ b hb; cases hb
  | cons c t ih =>
    intro lo hi h hv b hb
    obtain ⟨hc, ht⟩ := h
    have hcs : 0 < c.size := hv c (by simp)
    have hle := coversB_lo_le ht (fun x hx => hv x (List.mem_cons_of_mem _ hx))
    rcases List.mem_cons.1 hb with rfl | hb
    · constructor
      · omega
      · omega
    · have := ih ht (fun x hx => hv x (List.mem_cons_of_mem _ hx)) b hb
      have := validB_begin_le_end hcs
      omega

theorem coversB_append_one {l : List MemoryBlock} {lo m : Int} {x : MemoryBlock}
    (h : coversB lo l m) (hx : x.begin_address = m + 1) :
    coversB lo (l ++ [x]) x.end_address := by
  induction l generalizing lo with
  | nil =>
    unfold coversB at h
    exact ⟨by omega, by unfold coversB; ring⟩
  | cons b t ih =>
    obtain ⟨hb, ht⟩ := h
    exact ⟨hb, ih ht⟩

theorem coversB_chain_sep :
    ∀ {l : List MemoryBlock} {lo hi : Int}, coversB lo l hi →
      List.Chain' sepB l := by
  intro l
  induction l with
  | nil => intro _ _ _; exact List.chain'_nil
  | cons b t ih =>
    intro lo hi h
    obtain ⟨hb, ht⟩ := h
    rw [List.chain'_cons']
    refine ⟨?_, ih ht⟩
    intro y hy
    cases t with
    | nil => cases hy
    | cons c t' =>
      simp only [List.head?_cons, Option.mem_def, Option.some.injEq] at hy
      subst hy
      obtain ⟨hc, _⟩ := ht
      unfold sepB
      omega

/-- Sorted insertion between an all-smaller first part and an all-not-smaller
remainder lands exactly at the junction. -/
theorem sortedInsertBlk_concat {x r : MemoryBlock} :
    ∀ {pre suf : List MemoryBlock},
      (∀ d ∈ pre, ¬ x.begin_address ≤ d.begin_address) →
      x.begin_address ≤ r.begin_address →
      sortedInsertBlk x (pre ++ r :: suf) = pre ++ x :: r :: suf := by
  intro pre
  induction pre with
  | nil => intro suf _ hr; exact sortedInsertBlk_cons_le hr
  | cons d pre' ih =>
    intro suf hall hr
    rw [List.cons_append, sortedInsertBlk_cons_gt (hall d (by simp)),
        ih (fun c hc => hall c (List.mem_cons_of_mem _ hc)) hr]
    rfl

/-- One pass of the `fill_gaps` loop body up to the point where `free_address`
is advanced: either a gap `[free, r.begin-1]` is synthesized and inserted
right before `r`, or `free` already equals `r.begin` and nothing happens. -/
theorem fillGaps_insert_gap {rest : List MemoryBlock} {r : MemoryBlock}
    {done : List MemoryBlock} {ml : MemoryLayout} {free : Int}
    (hreg : ml.regions = done ++ r :: rest)
    (hch : List.Chain' sepB ml.regions)
    (hv : ∀ b ∈ ml.regions, 0 < b.size)
    (hcnt : ml.regions.length ≤ ml.items_count)
    (hib : ∀ b ∈ ml.regions, inBoundsOf ml.begin_address ml.size b)
    (hba : 0 ≤ ml.begin_address)
    (hcov : coversB ml.begin_address done (free - 1))
    (hfree : free ≤ r.begin_address) :
    ∃ mlc done1,
      (if r.begin_address - free > 0 then do
          let gap ← mkMemoryBlock free (r.begin_address - free) none true
          ml.append_mem_block gap
        else pure ml) = .ok mlc ∧
      mlc.begin_address = ml.begin_address ∧ mlc.size = ml.size ∧
      mlc.regions = done1 ++ r :: rest ∧
      coversB ml.begin_address done1 (r.begin_address - 1) ∧
      List.Chain' sepB mlc.regions ∧
      (∀ b ∈ mlc.regions, 0 < b.size) ∧
      mlc.regions.length ≤ mlc.items_count ∧
      (∀ b ∈ mlc.regions, inBoundsOf ml.begin_address ml.size b) ∧
      (∀ b ∈ mlc.regions, b ∈ ml.regions ∨ (b.unused = true ∧ b.identifier = none)) ∧
      (∀ b ∈ ml.regions, b ∈ mlc.regions) := by
  have hvdone : ∀ b ∈ done, 0 < b.size := by
    intro b hb; exact hv b (by rw [hreg]; exact List.mem_append_left _ hb)
  have hrmem : r ∈ ml.regions := by rw [hreg]; simp
  have hibr := hib r hrmem
  have hvr : 0 < r.size := hv r hrmem
  have hfree0 : ml.begin_address ≤ free := by
    have := coversB_lo_le hcov hvdone; omega
  have hsuffix : List.Chain' sepB (r :: rest) := by
    have := hch; rw [hreg] at this; exact this.right_of_append
  have hvsuffix : ∀ b ∈ r :: rest, 0 < b.size := by
    intro b hb; exact hv b (by rw [hreg]; exact List.mem_append_right _ hb)
  by_cases hgap : r.begin_address - free > 0
  · set gapB : MemoryBlock :=
      { begin_address := free, size := r.begin_address - free,
        identifier := none, unused := true } with hgapB
    have hgb : gapB.begin_address = free := rfl
    have hgs : gapB.size = r.begin_address - free := rfl
    have hgvalid : 0 < gapB.size := by omega
    have hgend : gapB.end_address = r.begin_address - 1 := by
      unfold MemoryBlock.end_address; omega
    have hmk : mkMemoryBlock free (r.begin_address - free) none true = .ok gapB := by
      rw [mkMemoryBlock, if_neg]
      omega
    have hdisj : ∀ c ∈ ml.regions, disjB gapB c := by
      intro c hc
      rw [hreg] at hc
      rcases List.mem_append.1 hc with hc | hc
      · right
        have := (coversB_mem_bounds hcov hvdone c hc).2
        omega
      · left
        have := chain_sep_head_begin_le hsuffix hvsuffix hc
        omega
    have hibg : inBoundsOf ml.begin_address ml.size gapB := by
      unfold inBoundsOf at hibr ⊢
      have := validB_begin_le_end hvr
      omega
    have happ := append_mem_block_ok hch hv hcnt hgvalid hibg hdisj
    have hins : sortedInsertBlk gapB ml.regions = done ++ gapB :: r :: rest := by
      rw [hreg]
      refine sortedInsertBlk_concat ?_ ?_
      · intro d hd
        have := (coversB_mem_bounds hcov hvdone d hd).2
        have := validB_begin_le_end (hvdone d hd)
        omega
      · omega
    refine ⟨?_, done ++ [gapB], ?_, ?_, ?_, ?_, ?_, ?_, ?_, ?_, ?_, ?_, ?_⟩
    case _ => exact { ml with regions := sortedInsertBlk gapB ml.regions,
                              items_count := ml.items_count + 1 }
    · rw [if_pos hgap, hmk]
      simp only [bind, Except.bind]
      exact happ
    · rfl
    · rfl
    · show sortedInsertBlk gapB ml.regions = (done ++ [gapB]) ++ r :: rest
      rw [hins]; simp
    · have := @coversB_append_one _ _ _ gapB hcov (by omega)
      rw [hgend] at this; exact this
    · show List.Chain' sepB (sortedInsertBlk gapB ml.regions)
      exact sortedInsertBlk_chain hch hv hgvalid hdisj
    · show ∀ b ∈ sortedInsertBlk gapB ml.regions, 0 < b.size
      intro b hb
      rcases sortedInsertBlk_mem hb with rfl | hb
      · exact hgvalid
      · exact hv b hb
    · show (sortedInsertBlk gapB ml.regions).length ≤ ml.items_count + 1
      have := (sortedInsertBlk_perm gapB ml.regions).length_eq
      simp only [List.length_cons] at this
      omega
    · show ∀ b ∈ sortedInsertBlk gapB ml.regions, inBoundsOf ml.begin_address ml.size b
      intro b hb
      rcases sortedInsertBlk_mem hb with rfl | hb
      · exact hibg
      · exact hib b hb
    · show ∀ b ∈ sortedInsertBlk gapB ml.regions,
        b ∈ ml.regions ∨ (b.unused = true ∧ b.identifier = none)
      intro b hb
      rcases sortedInsertBlk_mem hb with rfl | hb
      · exact Or.inr ⟨rfl, rfl⟩
      · exact Or.inl hb
    · show ∀ b ∈ ml.regions, b ∈ sortedInsertBlk gapB ml.regions
      intro b hb
      exact (sortedInsertBlk_perm gapB ml.regions).mem_iff.mpr (List.mem_cons_of_mem _ hb)
  · have heq : free = r.begin_address := by omega
    refine ⟨ml, done, ?_, rfl, rfl, hreg, ?_, hch, hv, hcnt, hib,
      fun b hb => Or.inl hb, fun b hb => hb⟩
    · rw [if_neg hgap]; rfl
    · rw [← heq]; exact hcov

theorem except_bind_assoc_ok {ε α β γ : Type} {x : Except ε α} {f : α → Except ε β}
    {b : β} (h : (x >>= fun a => f a) = .ok b) (k : β → Except ε γ) :
    (x >>= fun a => f a >>= k) = k b := by
  cases x with
  | error e =>
    simp only [bind, Except.bind] at h
    exact Except.noConfusion h
  | ok a =>
    simp only [bind, Except.bind] at h ⊢
    rw [h]

/-- The `fill_gaps` loop, started anywhere with the already-processed prefix
`done` tiling `[begin, free-1]`, succeeds and produces a complete tiling of
the layout's full range, every added block being an unused gap with no
identifier. -/
theorem fillGapsGo_ok :
    ∀ (rest : List MemoryBlock) (r : MemoryBlock) (done : List MemoryBlock)
      (ml : MemoryLayout) (free : Int),
      ml.regions = done ++ r :: rest →
      List.Chain' sepB ml.regions →
      (∀ b ∈ ml.regions, 0 < b.size) →
      ml.regions.length ≤ ml.items_count →
      (∀ b ∈ ml.regions, inBoundsOf ml.begin_address ml.size b) →
      0 ≤ ml.begin_address →
      coversB ml.begin_address done (free - 1) →
      free ≤ r.begin_address →
      ∃ ml', fillGapsGo ml free (r :: rest) = .ok ml' ∧
        ml'.begin_address = ml.begin_address ∧ ml'.size = ml.size ∧
        coversB ml.begin_address ml'.regions (ml.begin_address + ml.size - 1) ∧
        (∀ b ∈ ml'.regions, 0 < b.size) ∧
        (∀ b ∈ ml'.regions, b ∈ ml.regions ∨ (b.unused = true ∧ b.identifier = none)) ∧
        (∀ b ∈ ml.regions, b ∈ ml'.regions) := by
  intro rest
  induction rest with
  | nil =>
    intro r done ml free hreg hch hv hcnt hib hba hcov hfree
    obtain ⟨mlc, done1, hexpr, hcb, hcs, hcreg, hcov1, hch1, hv1, hcnt1, hib1,
      hmemf, hmemb⟩ :=
      fillGaps_insert_gap hreg hch hv hcnt hib hba hcov hfree
    have hcend : mlc.end_address = ml.end_address := by
      unfold MemoryLayout.end_address; rw [hcb, hcs]
    have hrmem : r ∈ mlc.regions := by rw [hcreg]; simp
    have hibr := hib1 r hrmem
    have hvr : 0 < r.size := hv1 r hrmem
    have hrend : r.end_address ≤ ml.end_address := by
      unfold inBoundsOf at hibr; unfold MemoryLayout.end_address; omega
    have hred : fillGapsGo ml free [r] =
        (if r.end_address + 1 > mlc.end_address then pure mlc
         else do
           let gap ← mkMemoryBlock (r.end_address + 1)
             (mlc.end_address - (r.end_address + 1) + 1) none true
           mlc.append_mem_block gap) := by
      rw [fillGapsGo]
      by_cases hgap : r.begin_address - free > 0
      · rw [if_pos hgap] at hexpr
        rw [if_pos hgap, except_bind_assoc_ok hexpr]
      · rw [if_neg hgap] at hexpr
        obtain rfl : ml = mlc := Except.ok.inj hexpr
        rw [if_neg hgap]
        rfl
    rw [hred]
    by_cases hend : r.end_address + 1 > mlc.end_address
    · -- `break` right after `r`: `r` must reach the end of the layout.
      rw [if_pos hend]
      refine ⟨mlc, rfl, hcb, hcs, ?_, hv1, hmemf, hmemb⟩
      have : r.end_address = ml.begin_address + ml.size - 1 := by
        unfold MemoryLayout.end_address at *; omega
      rw [hcreg, ← this]
      exact coversB_append_one hcov1 (by omega)
    · -- a final gap `[r.end+1, layout.end]` is synthesized and appended.
      rw [if_neg hend]
      set free2 := r.end_address + 1 with hfree2
      set g2 : MemoryBlock :=
        { begin_address := free2, size := mlc.end_address - free2 + 1,
          identifier := none, unused := true } with hg2
      have hg2b : g2.begin_address = free2 := rfl
      have hg2s : g2.size = mlc.end_address - free2 + 1 := rfl
      have hg2v : 0 < g2.size := by omega
      have hg2end : g2.end_address = ml.end_address := by
        unfold MemoryBlock.end_address
        rw [hg2b, hg2s, hcend]; ring
      -- `free2 ≥ 0` because `r` begins inside the (non-negative) layout range
      have hrb : ml.begin_address ≤ r.begin_address := by
        unfold inBoundsOf at hibr; omega
      have hrbe := validB_begin_le_end hvr
      have hmk2 : mkMemoryBlock free2 (mlc.end_address - free2 + 1) none true
          = .ok g2 := by
        rw [mkMemoryBlock, if_neg]
        omega
      have hbnds : ∀ c ∈ mlc.regions, c.end_address ≤ r.end_address := by
        intro c hc
        rw [hcreg] at hc
        rcases List.mem_append.1 hc with hc | hc
        · have := (coversB_mem_bounds hcov1 (fun x hx => hv1 x (by
            rw [hcreg]; exact List.mem_append_left _ hx)) c hc).2
          omega
        · rcases List.mem_cons.1 hc with rfl | hc
          · omega
          · cases hc
      have hdisj2 : ∀ c ∈ mlc.regions, disjB g2 c := by
        intro c hc
        right
        have := hbnds c hc
        omega
      have hibg2 : inBoundsOf mlc.begin_address mlc.size g2 := by
        unfold inBoundsOf
        constructor
        · rw [hg2b, hcb]; omega
        · rw [hg2end, ← hcend]; unfold MemoryLayout.end_address; omega
      have happ2 := append_mem_block_ok hch1 hv1 hcnt1 hg2v hibg2 hdisj2
      have hins2 : sortedInsertBlk g2 mlc.regions = mlc.regions ++ [g2] := by
        refine sortedInsertBlk_append_last ?_
        intro c hc
        have h1 := hbnds c hc
        have h2 := validB_begin_le_end (hv1 c hc)
        omega
      rw [hmk2]
      simp only [bind, Except.bind]
      rw [happ2]
      refine ⟨_, rfl, hcb, hcs, ?_, ?_, ?_, ?_⟩
      · show coversB ml.begin_address (sortedInsertBlk g2 mlc.regions) ml.end_address
        rw [hins2, hcreg, ← hg2end]
        have hcov2 : coversB ml.begin_address (done1 ++ [r]) r.end_address :=
          coversB_append_one hcov1 (by omega)
        have := @coversB_append_one _ _ _ g2 hcov2 (by omega)
        simpa using this
      · show ∀ b ∈ sortedInsertBlk g2 mlc.regions, 0 < b.size
        intro b hb
        rcases sortedInsertBlk_mem hb with rfl | hb
        · exact hg2v
        · exact hv1 b hb
      · show ∀ b ∈ sortedInsertBlk g2 mlc.regions, _ ∨ _
        intro b hb
        rcases sortedInsertBlk_mem hb with rfl | hb
        · exact Or.inr ⟨rfl, rfl⟩
        · exact hmemf b hb
      · show ∀ b ∈ ml.regions, b ∈ sortedInsertBlk g2 mlc.regions
        intro b hb
        rw [hins2]
        exact List.mem_append_left _ (hmemb b hb)
  | cons r2 rest2 ih =>
    intro r done ml free hreg hch hv hcnt hib hba hcov hfree
    obtain ⟨mlc, done1, hexpr, hcb, hcs, hcreg, hcov1, hch1, hv1, hcnt1, hib1,
      hmemf, hmemb⟩ :=
      fillGaps_insert_gap hreg hch hv hcnt hib hba hcov hfree
    have hcend : mlc.end_address = ml.end_address := by
      unfold MemoryLayout.end_address; rw [hcb, hcs]
    have hrmem : r ∈ mlc.regions := by rw [hcreg]; simp
    have hibr := hib1 r hrmem
    have hvr : 0 < r.size := hv1 r hrmem
    have hsuffix : List.Chain' sepB (r :: r2 :: rest2) := by
      have := hch1; rw [hcreg] at this; exact this.right_of_append
    have hsep12 : sepB r r2 := (List.chain'_cons.1 hsuffix).1
    have hr2mem : r2 ∈ mlc.regions := by rw [hcreg]; simp
    have hibr2 := hib1 r2 hr2mem
    have hvr2 : 0 < r2.size := hv1 r2 hr2mem
    have hred : fillGapsGo ml free (r :: r2 :: rest2) =
        (if r.end_address + 1 > mlc.end_address then pure mlc
         else fillGapsGo mlc (r.end_address + 1) (r2 :: rest2)) := by
      rw [fillGapsGo]
      by_cases hgap : r.begin_address - free > 0
      · rw [if_pos hgap] at hexpr
        rw [if_pos hgap, except_bind_assoc_ok hexpr]
      · rw [if_neg hgap] at hexpr
        obtain rfl : ml = mlc := Except.ok.inj hexpr
        rw [if_neg hgap]
        rfl
    rw [hred]
    have hend : ¬ r.end_address + 1 > mlc.end_address := by
      -- `r2` lies in bounds strictly after `r`
      have h1 : r2.begin_address ≤ r2.end_address := validB_begin_le_end hvr2
      have h2 : r2.end_address ≤ ml.end_address := by
        unfold inBoundsOf at hibr2; unfold MemoryLayout.end_address; omega
      unfold sepB at hsep12
      omega
    rw [if_neg hend]
    have hibml : ∀ b ∈ mlc.regions, inBoundsOf mlc.begin_address mlc.size b := by
      intro b hb
      have := hib1 b hb
      unfold inBoundsOf at *
      rw [hcb, hcs]
      exact this
    have hba1 : 0 ≤ mlc.begin_address := by rw [hcb]; exact hba
    have hcov2 : coversB mlc.begin_address (done1 ++ [r])
        (r.end_address + 1 - 1) := by
      rw [hcb]
      have := @coversB_append_one _ _ _ r hcov1 (by omega)
      simpa using this
    have hfree2 : r.end_address + 1 ≤ r2.begin_address := by
      unfold sepB at hsep12; omega
    obtain ⟨ml', hrec, h1, h2, h3, h4, h5, h6⟩ :=
      ih r2 (done1 ++ [r]) mlc (r.end_address + 1)
        (by rw [hcreg]; simp) hch1 hv1 hcnt1 hibml hba1 hcov2 hfree2
    refine ⟨ml', hrec, ?_, ?_, ?_, h4, ?_, ?_⟩
    · rw [h1, hcb]
    · rw [h2, hcs]
    · rw [hcb, hcs] at h3; exact h3
    · intro b hb
      rcases h5 b hb with hb' | hb'
      · exact hmemf b hb'
      · exact Or.inr hb'
    · intro b hb
      exact h6 b (hmemb b hb)

/-- **C1** — for every layout with fixed bounds `[ba, ba+sz-1]` (valid: `0 ≤ ba`,
`0 < sz`): if a set of pairwise non-overlapping, in-bounds blocks is appended
and `fill_gaps()` is then called once, the call succeeds and the resulting
block sequence (i) tiles `[ba, ba+sz-1]` exactly — zero gaps, zero overlaps,
first block starts at `ba`, last block ends at `ba+sz-1` (`coversB`), (ii) is
sorted strictly ascending by `begin_address`, is non-empty, and (iii) consists
of exactly the appended blocks plus synthesized blocks with `unused = true`
and no identifier (`identifier()` renders as the empty string). -/
theorem claim_C1_fill_gaps_partition (ba sz : Int) (bl : List MemoryBlock)
    (ml : MemoryLayout)
    (hba : 0 ≤ ba) (hsz : 0 < sz)
    (hv : ∀ b ∈ bl, 0 < b.size)
    (hib : ∀ b ∈ bl, inBoundsOf ba sz b)
    (hdisj : bl.Pairwise disjB)
    (happ : appendAll (mkMemoryLayout ba sz) bl = .ok ml) :
    ∃ ml', ml.fill_gaps = .ok ml' ∧
      ml'.to_list ≠ [] ∧
      coversB ba ml'.to_list (ba + sz - 1) ∧
      List.Pairwise (fun a b => a.begin_address < b.begin_address) ml'.to_list ∧
      (∀ b ∈ ml'.to_list, b ∈ ml.to_list ∨ (b.unused = true ∧ b.identifier = none)) ∧
      (∀ b ∈ ml.to_list, b ∈ ml'.to_list) := by
  obtain ⟨m1, h1ap, h1b, h1s, h1c, h1p, h1ch, h1v, h1cnt⟩ :=
    @appendAll_ok bl (mkMemoryLayout ba sz)
      List.chain'_nil (by simp [mkMemoryLayout]) (by simp [mkMemoryLayout])
      hv hib (by simp [mkMemoryLayout]) hdisj
  rw [h1ap] at happ
  obtain rfl : ml = m1 := (Except.ok.inj happ).symm
  have hmb : ml.begin_address = ba := h1b
  have hms : ml.size = sz := h1s
  have hibml : ∀ b ∈ ml.regions, inBoundsOf ml.begin_address ml.size b := by
    intro b hb
    rw [hmb, hms]
    exact hib b (by
      have := h1p.mem_iff.mp hb
      simpa [mkMemoryLayout] using this)
  have hba' : 0 ≤ ml.begin_address := by rw [hmb]; exact hba
  unfold MemoryLayout.fill_gaps
  cases hreg : ml.regions with
  | nil =>
    set gap0 : MemoryBlock :=
      { begin_address := ml.begin_address, size := ml.size,
        identifier := none, unused := true } with hgap0
    have hg0b : gap0.begin_address = ml.begin_address := rfl
    have hg0s : gap0.size = ml.size := rfl
    have hg0v : 0 < gap0.size := by rw [hg0s, hms]; exact hsz
    have hmk : mkMemoryBlock ml.begin_address ml.size none true = .ok gap0 := by
      rw [mkMemoryBlock, if_neg]
      rw [hms] at *
      omega
    have hibg : inBoundsOf ml.begin_address ml.size gap0 := by
      unfold inBoundsOf MemoryBlock.end_address
      omega
    have happ0 := @append_mem_block_ok ml gap0
      (by rw [hreg]; exact List.chain'_nil) (by rw [hreg]; simp)
      (by rw [hreg]; simp) hg0v hibg (by rw [hreg]; simp)
    rw [hmk]
    simp only [bind, Except.bind]
    rw [happ0]
    refine ⟨_, rfl, ?_, ?_, ?_, ?_, ?_⟩
    · show sortedInsertBlk gap0 ml.regions ≠ []
      rw [hreg]
      simp [sortedInsertBlk]
    · show coversB ba (sortedInsertBlk gap0 ml.regions) (ba + sz - 1)
      rw [hreg]
      show coversB ba [gap0] (ba + sz - 1)
      refine ⟨by rw [hg0b, hmb], ?_⟩
      show ba + sz - 1 = gap0.end_address + 1 - 1
      unfold MemoryBlock.end_address
      rw [hg0b, hg0s, hmb, hms]
      ring
    · show List.Pairwise _ (sortedInsertBlk gap0 ml.regions)
      rw [hreg]
      simp [sortedInsertBlk]
    · show ∀ b ∈ sortedInsertBlk gap0 ml.regions, _ ∨ _
      rw [hreg]
      intro b hb
      simp only [sortedInsertBlk, List.mem_singleton] at hb
      subst hb
      exact Or.inr ⟨rfl, rfl⟩
    · show ∀ b ∈ ml.to_list, b ∈ sortedInsertBlk gap0 ml.regions
      unfold MemoryLayout.to_list
      rw [hreg]
      intro b hb
      cases hb
  | cons r rest =>
    have hfree : ml.begin_address ≤ r.begin_address := by
      have := hibml r (by rw [hreg]; simp)
      unfold inBoundsOf at this
      omega
    obtain ⟨ml', hgo, h1, h2, h3, h4, h5, h6⟩ :=
      fillGapsGo_ok rest r [] ml ml.begin_address
        (by rw [hreg]; rfl)
        (by rw [hreg] at h1ch ⊢; exact h1ch)
        (by rw [hreg] at h1v ⊢; exact h1v)
        (by rw [hreg] at h1cnt ⊢; exact h1cnt)
        hibml hba' (by exact rfl) hfree
    refine ⟨ml', hgo, ?_, ?_, ?_, ?_, ?_⟩
    · show ml'.regions ≠ []
      intro he
      rw [he] at h3
      unfold coversB at h3
      rw [hms] at h3
      omega
    · show coversB ba ml'.regions (ba + sz - 1)
      rw [← hmb, ← hms]
      exact h3
    · exact chain_sep_pairwise_begin (coversB_chain_sep h3) h4
    · exact h5
    · exact h6

/-- Witness for C1 at the module docstring's example: layout `[0, 0x1F]`
(size `0x20`), one appended block `(0x00, size 0x12, 'DR1')`, then
`fill_gaps()`. -/
theorem claim_C1_witness :
    (0 ≤ (0 : Int) ∧ 0 < (32 : Int) ∧
     (∀ b ∈ [MemoryBlock.mk 0 18 (some "DR1") false], 0 < b.size) ∧
     (∀ b ∈ [MemoryBlock.mk 0 18 (some "DR1") false], inBoundsOf 0 32 b) ∧
     List.Pairwise disjB [MemoryBlock.mk 0 18 (some "DR1") false] ∧
     appendAll (mkMemoryLayout 0 32) [MemoryBlock.mk 0 18 (some "DR1") false] =
       .ok (MemoryLayout.mk 0 32 [MemoryBlock.mk 0 18 (some "DR1") false] 1)) ∧
    (∃ ml', (MemoryLayout.mk 0 32 [MemoryBlock.mk 0 18 (some "DR1") false] 1).fill_gaps
        = .ok ml' ∧
      ml'.to_list ≠ [] ∧
      coversB 0 ml'.to_list (0 + 32 - 1) ∧
      List.Pairwise (fun a b => a.begin_address < b.begin_address) ml'.to_list ∧
      (∀ b ∈ ml'.to_list,
        b ∈ (MemoryLayout.mk 0 32 [MemoryBlock.mk 0 18 (some "DR1") false] 1).to_list ∨
          (b.unused = true ∧ b.identifier = none)) ∧
      (∀ b ∈ (MemoryLayout.mk 0 32 [MemoryBlock.mk 0 18 (some "DR1") false] 1).to_list,
        b ∈ ml'.to_list)) := by
  refine ⟨⟨by decide, by decide, by decide, by decide, ?_, by decide⟩, ?_⟩
  · simp
  · exact claim_C1_fill_gaps_partition 0 32 [MemoryBlock.mk 0 18 (some "DR1") false]
      (MemoryLayout.mk 0 32 [MemoryBlock.mk 0 18 (some "DR1") false] 1)
      (by decide) (by decide) (by decide) (by decide) (by simp) (by decide)

/-! ## Layout equality (`MemoryLayout.__eq__`, `memorymap_printer.py` lines 137-156) -/

/-- The pairwise walk of `__eq__`: `while ref_region:` compares
`ref_mem_block == other_mem_block` (begin and size only) **and** the two
`is_unused()` flags; it returns `True` when the reference chain is exhausted.
If the other chain is exhausted first, the source dereferences
`other_region.data()` on `None` and raises `AttributeError`. -/
def layoutEqWalk : List MemoryBlock → List MemoryBlock → Except PyErr Bool
  | [], _ => .ok true
  | _ :: _, [] => .error .attributeError
  | r :: rs, o :: os =>
    if blockEqPy r o && (r.unused == o.unused) then layoutEqWalk rs os
    else .ok false

/-- `MemoryLayout.__eq__` (for a non-`None` right operand): begin address,
size, `regions.count()` (the `_items` length), then the pairwise walk. -/
def layoutEqPy (a b : MemoryLayout) : Except PyErr Bool :=
  if a.begin_address == b.begin_address && a.size == b.size then
    if a.items_count == b.items_count then
      layoutEqWalk a.regions b.regions
    else .ok false
  else .ok false

theorem layoutEqWalk_iff :
    ∀ {la lb : List MemoryBlock}, la.length = lb.length →
      (layoutEqWalk la lb = .ok true ↔
        List.Forall₂ (fun x y => blockEqPy x y = true ∧ x.unused = y.unused) la lb) := by
  intro la
  induction la with
  | nil =>
    intro lb hlen
    cases lb with
    | nil => simp [layoutEqWalk]
    | cons y ys => simp at hlen
  | cons x xs ih =>
    intro lb hlen
    cases lb with
    | nil => simp at hlen
    | cons y ys =>
      simp only [List.length_cons, Nat.add_right_cancel_iff] at hlen
      unfold layoutEqWalk
      by_cases hcond : (blockEqPy x y && (x.unused == y.unused)) = true
      · rw [if_pos hcond]
        rw [ih hlen]
        simp only [Bool.and_eq_true, beq_iff_eq] at hcond
        constructor
        · intro h
          exact List.Forall₂.cons ⟨hcond.1, hcond.2⟩ h
        · intro h
          cases h with
          | cons _ h2 => exact h2
      · rw [if_neg hcond]
        constructor
        · intro h
          exact absurd h (by simp)
        · intro h
          cases h with
          | cons h1 h2 =>
            exfalso
            apply hcond
            simp only [Bool.and_eq_true, beq_iff_eq]
            exact ⟨h1.1, h1.2⟩

/-- Two reachable layouts whose single blocks differ **only in identifier**
compare equal under `__eq__` — the source's layout-level block comparison
checks `begin_address`, `size` and `is_unused()`, never the identifier.  This
refutes the claim that layout equality "additionally requires the identifier
... of corresponding blocks to match". -/
theorem claim_C5_counterexample :
    appendAll (mkMemoryLayout 0 4) [MemoryBlock.mk 0 4 (some "A") false] =
      .ok (MemoryLayout.mk 0 4 [MemoryBlock.mk 0 4 (some "A") false] 1) ∧
    appendAll (mkMemoryLayout 0 4) [MemoryBlock.mk 0 4 (some "B") false] =
      .ok (MemoryLayout.mk 0 4 [MemoryBlock.mk 0 4 (some "B") false] 1) ∧
    (MemoryBlock.mk 0 4 (some "A") false).identifier ≠
      (MemoryBlock.mk 0 4 (some "B") false).identifier ∧
    layoutEqPy (MemoryLayout.mk 0 4 [MemoryBlock.mk 0 4 (some "A") false] 1)
        (MemoryLayout.mk 0 4 [MemoryBlock.mk 0 4 (some "B") false] 1) = .ok true := by
  refine ⟨by decide, by decide, by decide, by decide⟩

/-- **C5** (amended) — for layouts whose `count()` bookkeeping agrees with the
chain length (true of every layout built by appends), `__eq__` returns `True`
iff both layouts have the same begin address, the same size, the same block
count, and pairwise-corresponding blocks agree on `begin_address`, `size`
and the `unused` flag — the identifier is **not** compared.  In particular
any difference in a single block's `unused` flag breaks equality. -/
theorem claim_C5_layout_eq (a b : MemoryLayout)
    (ha : a.items_count = a.regions.length)
    (hb : b.items_count = b.regions.length) :
    layoutEqPy a b = .ok true ↔
      (a.begin_address = b.begin_address ∧ a.size = b.size ∧
       a.items_count = b.items_count ∧
       List.Forall₂ (fun x y => blockEqPy x y = true ∧ x.unused = y.unused)
         a.regions b.regions) := by
  unfold layoutEqPy
  by_cases h1 : a.begin_address = b.begin_address ∧ a.size = b.size
  · have hc1 : (a.begin_address == b.begin_address && a.size == b.size) = true := by
      simp [h1.1, h1.2]
    rw [if_pos hc1]
    by_cases h2 : a.items_count = b.items_count
    · have hc2 : (a.items_count == b.items_count) = true := by simp [h2]
      rw [if_pos hc2]
      have hlen : a.regions.length = b.regions.length := by omega
      rw [layoutEqWalk_iff hlen]
      constructor
      · intro h; exact ⟨h1.1, h1.2, h2, h⟩
      · intro h; exact h.2.2.2
    · have hc2 : ¬ (a.items_count == b.items_count) = true := by simp [h2]
      rw [if_neg hc2]
      constructor
      · intro h; exact absurd h (by simp)
      · intro h; exact absurd h.2.2.1 h2
  · have hc1 : ¬ (a.begin_address == b.begin_address && a.size == b.size) = true := by
      simp only [Bool.and_eq_true, beq_iff_eq]
      tauto
    rw [if_neg hc1]
    constructor
    · intro h; exact absurd h (by simp)
    · intro h; exact absurd ⟨h.1, h.2.1⟩ h1

/-- Witness for C5 applied at two concrete layouts that differ in one block's
`unused` flag: `__eq__` is `False` (the right-to-left direction of the
characterisation rules it out). -/
theorem claim_C5_witness :
    ((MemoryLayout.mk 0 4 [MemoryBlock.mk 0 4 none false] 1).items_count =
        (MemoryLayout.mk 0 4 [MemoryBlock.mk 0 4 none false] 1).regions.length ∧
     (MemoryLayout.mk 0 4 [MemoryBlock.mk 0 4 none true] 1).items_count =
        (MemoryLayout.mk 0 4 [MemoryBlock.mk 0 4 none true] 1).regions.length) ∧
    (layoutEqPy (MemoryLayout.mk 0 4 [MemoryBlock.mk 0 4 none false] 1)
        (MemoryLayout.mk 0 4 [MemoryBlock.mk 0 4 none true] 1) = .ok true ↔
      ((MemoryLayout.mk 0 4 [MemoryBlock.mk 0 4 none false] 1).begin_address =
          (MemoryLayout.mk 0 4 [MemoryBlock.mk 0 4 none true] 1).begin_address ∧
       (MemoryLayout.mk 0 4 [MemoryBlock.mk 0 4 none false] 1).size =
          (MemoryLayout.mk 0 4 [MemoryBlock.mk 0 4 none true] 1).size ∧
       (MemoryLayout.mk 0 4 [MemoryBlock.mk 0 4 none false] 1).items_count =
          (MemoryLayout.mk 0 4 [MemoryBlock.mk 0 4 none true] 1).items_count ∧
       List.Forall₂ (fun x y => blockEqPy x y = true ∧ x.unused = y.unused)
         (MemoryLayout.mk 0 4 [MemoryBlock.mk 0 4 none false] 1).regions
         (MemoryLayout.mk 0 4 [MemoryBlock.mk 0 4 none true] 1).regions)) := by
  exact ⟨⟨rfl, rfl⟩,
    claim_C5_layout_eq _ _ rfl rfl⟩

/-! ## String utilities (`string_utils.py`) and Python string operations -/

/-- The loop of `hex_digits`: `ret`, `border`, `while border <= 2**64`.  The
loop body runs at most 17 times (`border` is `16^k`), so a fuel of 18 makes
the fuel bound unreachable and the recursion match the `while` exactly. -/
def hexDigitsGo (value : Int) (ret : Nat) (border : Int) : Nat → Nat
  | 0 => ret
  | fuel + 1 =>
    if border ≤ 2 ^ 64 then
      let border2 := border * 16
      if value < border2 then ret else hexDigitsGo value (ret + 1) border2 fuel
    else ret

/-- `hex_digits(value)` — minimal number of hex digits representing `value`. -/
def hex_digits (value : Int) : Nat := hexDigitsGo value 1 1 18

/-- `max_strlen_in_list(str_list)`. -/
def max_strlen_in_list (str_list : List String) : Nat :=
  str_list.foldl (fun ret item => max ret item.length) 0

/-- One-character string. -/
def charStr (c : Char) : String := String.mk [c]

/-- Python's `char * n` string repetition (empty for non-positive counts). -/
def charRep (c : Char) (n : Nat) : String := String.mk (List.replicate n c)

/-- Python's `f'{text:^{w}}'` centering: when the text is at least `w` wide it
is returned unchanged, otherwise it is padded with spaces, the extra space (if
`w - len` is odd) going to the right. -/
def pyCenter (s : String) (w : Nat) : String :=
  if w ≤ s.length then s
  else
    let pad := w - s.length
    let left := pad / 2
    charRep ' ' left ++ s ++ charRep ' ' (pad - left)

/-- Zero left-padding to total width `w` (Python's `0{w}` format). -/
def zfill (w : Nat) (s : String) : String :=
  charRep '0' (w - s.length) ++ s

/-- Upper-case hexadecimal digits of a natural number. -/
def hexUpperStr (n : Nat) : String :=
  String.mk ((Nat.toDigits 16 n).map Char.toUpper)

/-- Python's `f'{v:0{d}X}'` for an `int` `v`: upper-case hex, zero-padded to a
total width of `d` (the sign, for a negative value, counts towards the
width). -/
def pyHexPad (d : Nat) (v : Int) : String :=
  if 0 ≤ v then zfill d (hexUpperStr v.toNat)
  else "-" ++ zfill (d - 1) (hexUpperStr (-v).toNat)

/-- Python string slicing `s[0:n]`: the first `n` characters. -/
def pyTake (s : String) (n : Nat) : String := String.mk (s.data.take n)

/-- Python sequence indexing `l[i]`: a negative index counts from the end;
an index out of range raises `IndexError`. -/
def pyGet {α : Type} (l : List α) (i : Int) : Except PyErr α :=
  let j := if i < 0 then (l.length : Int) + i else i
  if j < 0 then .error .indexError
  else
    match l.get? j.toNat with
    | some a => .ok a
    | none => .error .indexError

/-! ## Renderer configuration (`memorymap_printer.py`, lines 260-307) -/

/-- `MemoryLayoutPrinterConfig` — the `is_bits` switch picks decimal base,
3-digit width, `:` separator, square brackets and high-to-low ranges. -/
structure MemoryLayoutPrinterConfig where
  show_identifier : Bool
  no_headers : Bool
  cell_min_length : Nat
  cell_max_length : Nat
  show_address_range : Bool
  range_starts_from_higher_address : Bool
  address_base : String
  max_address_digits : Nat
  range_separator : String
  brackets : String
deriving DecidableEq, Repr

/-- `MemoryLayoutPrinterConfig.__init__` with the source's defaults. -/
def mkMemoryLayoutPrinterConfig (is_bits : Bool := false)
    (show_identifier : Bool := true) (max_address_digits : Nat := 0)
    (no_headers : Bool := false) (cell_min_length : Nat := 20)
    (cell_max_length : Nat := 45) : MemoryLayoutPrinterConfig :=
  if is_bits then
    { show_identifier := show_identifier, no_headers := no_headers,
      cell_min_length := cell_min_length, cell_max_length := cell_max_length,
      show_address_range := true, range_starts_from_higher_address := true,
      address_base := "dec", max_address_digits := 3,
      range_separator := ":", brackets := "square" }
  else
    { show_identifier := show_identifier, no_headers := no_headers,
      cell_min_length := cell_min_length, cell_max_length := cell_max_length,
      show_address_range := true, range_starts_from_higher_address := false,
      address_base := "hex", max_address_digits := max_address_digits,
      range_separator := "-", brackets := "parentheses" }

/-- `MemoryLayoutPrinterSettings` (internal constants). -/
structure MemoryLayoutPrinterSettings where
  text_offset : Nat := 1
  cell_vertical_separator : Char := '-'
  cell_horizontal_separator : Char := '|'
  ver_hor_cross_char : Char := '+'
  unused_data_filler_char : Char := 'X'
deriving DecidableEq, Repr

/-- `MemoryLayoutPrinter` state: configuration (shared, mutable in the
source), loaded layouts (`None` allowed: a blank column), headers, and the
per-renderer `_calculated_max_address_digits`. -/
structure MemoryLayoutPrinter where
  config : MemoryLayoutPrinterConfig
  loaded_layouts : List (Option MemoryLayout) := []
  headers : List String := []
  calculated_max_address_digits : Nat := 0
  settings : MemoryLayoutPrinterSettings := {}
deriving DecidableEq, Repr

/-- `MemoryLayoutPrinter.__init__(config)`. -/
def mkMemoryLayoutPrinter
    (config : MemoryLayoutPrinterConfig := mkMemoryLayoutPrinterConfig) :
    MemoryLayoutPrinter :=
  { config := config }

/-- `MemoryLayoutPrinter.add_layout(layout, header, position)`
(lines 309-321).  For `position < 0` the pair is appended.  For
`position >= 0` the source executes `self.loaded_layouts.insert(None, i)`
(padding loop) or `self.loaded_layouts.insert(layout, position)`: in both
calls the arguments are swapped — `list.insert(index, object)` receives
`None` resp. the layout object as its *index* — so the Python runtime raises
`TypeError` before any renderer state has been modified (the padding loop
raises on its first iteration; the non-padding call raises before
`headers.insert`). -/
def MemoryLayoutPrinter.add_layout (p : MemoryLayoutPrinter)
    (layout : Option MemoryLayout) (header : String) (position : Int := -1) :
    Except PyErr MemoryLayoutPrinter :=
  if position < 0 then
    .ok { p with loaded_layouts := p.loaded_layouts ++ [layout],
                 headers := p.headers ++ [header] }
  else
    .error .typeError

/-- `MemoryLayoutPrinter._get_mem_region_id(mem_reg)` (lines 323-358):
the text used as a block's cell label.  `d` is the configured digit count or,
when configured as 0, the `_calculated_max_address_digits` of the last
`to_text` call. -/
def getMemRegionId (p : MemoryLayoutPrinter) (mem_reg : Option MemoryBlock) :
    String :=
  match mem_reg with
  | none => ""
  | some mr =>
    let b := mr.begin_address
    let e := mr.end_address
    let d := if p.config.max_address_digits = 0 then
        p.calculated_max_address_digits
      else p.config.max_address_digits
    -- `f'{prefix}{v:{suffix}}'` with `suffix = f'0{d}X'` for hex and the empty
    -- format (plain decimal `str`) otherwise
    let fmt : Int → String := fun v =>
      if p.config.address_base = "hex" then "0x" ++ pyHexPad d v
      else toString v
    let open_bracket := if p.config.brackets = "square" then "[" else "("
    let close_bracket := if p.config.brackets = "square" then "]" else ")"
    let address_range :=
      if b = e then fmt b
      else if p.config.range_starts_from_higher_address then
        fmt e ++ p.config.range_separator ++ fmt b
      else
        fmt b ++ p.config.range_separator ++ fmt e
    if p.config.show_identifier then
      mr.identifierStr ++
        (if p.config.show_address_range then
          open_bracket ++ address_range ++ close_bracket
        else "")
    else
      if p.config.show_address_range then address_range else ""

/-- `MemoryLayoutPrinter._get_merged_addresses_list(ml_list)` (lines 360-373):
`sorted(list(set(...)))` of every block's begin address over all non-`None`
layouts.  The set-then-sort is embedded as insertion into a sorted
duplicate-free list, which yields the same sorted, duplicate-free result
independent of traversal order. -/
def insertSortedDedup (x : Int) : List Int → List Int
  | [] => [x]
  | y :: ys =>
    if x < y then x :: y :: ys
    else if x = y then y :: ys
    else y :: insertSortedDedup x ys

def get_merged_addresses_list (ml_list : List (Option MemoryLayout)) : List Int :=
  ml_list.foldl (fun acc ol =>
    match ol with
    | none => acc
    | some l => l.regions.foldl (fun a r => insertSortedDedup r.begin_address a) acc) []

/-- `MemoryLayoutPrinter.append_cell_line(cur_line, text)` (lines 375-391):
joins two cell pieces, eliding one copy of a shared border character, gluing
over a trailing space, and special-casing a trailing column separator against
a leading cross character. -/
def appendCellLine (p : MemoryLayoutPrinter) (cur_line text : String) : String :=
  if text = "" then cur_line
  else if cur_line = "" then text
  else if cur_line.back = text.front then cur_line ++ text.drop 1
  else if cur_line.back = ' ' then cur_line.dropRight 1 ++ text
  else if cur_line.back = p.settings.cell_horizontal_separator ∧
      text.front = p.settings.ver_hor_cross_char then
    cur_line.dropRight 1 ++ text
  else cur_line ++ text.drop 1

/-- `MemoryLayoutPrinter.cell_data_only(text)` — centre to the (current)
`cell_max_length`. -/
def cellDataOnly (p : MemoryLayoutPrinter) (text : String) : String :=
  pyCenter text p.config.cell_max_length

/-- `MemoryLayoutPrinter.get_cell(text, is_mem_block_start, is_endl, is_data)`
(lines 396-419): a two-line cell block (border line, data line).  Text longer
than `cell_max_length` is truncated.  (The source's `text.replace('\n', '')`
discards its result and has no effect.) -/
def getCell (p : MemoryLayoutPrinter) (text : String)
    (is_mem_block_start is_endl : Bool) (is_data : Bool := true) :
    String × String :=
  let cell_max_len := p.config.cell_max_length
  let cross_char := p.settings.ver_hor_cross_char
  let ver_char := p.settings.cell_horizontal_separator
  let hor_char := p.settings.cell_vertical_separator
  let edge_char := if is_data then ver_char else ' '
  let text := if text.length > p.config.cell_max_length then
      pyTake text p.config.cell_max_length
    else text
  let line1 := charStr edge_char ++ cellDataOnly p text ++ charStr edge_char
  let line0 := if is_mem_block_start then
      charStr cross_char ++ charRep hor_char cell_max_len ++ charStr cross_char
    else line1
  if is_endl then (line0 ++ "\n", line1 ++ "\n") else (line0, line1)

/-! ## `MemoryLayoutPrinter.to_text` (lines 421-538) -/

/-- Per-column loop state inside one breakpoint row: the two strings of the
current row block, the per-column block cursors, and the accumulated closing
border line. -/
structure RenderRowSt where
  cur0 : String
  cur1 : String
  idxs : List Nat
  table_last_line : String
deriving DecidableEq, Repr

/-- One column of one breakpoint row (the body of the `for layout_index`
loop, lines 475-532). -/
def renderColumn (p : MemoryLayoutPrinter) (address : Int)
    (is_first_address is_last_address : Bool) (layouts_num : Nat)
    (mem_regions_lists : List (List MemoryBlock))
    (unused_cell_str empty_cell_str : String) (cell_max_len : Nat)
    (st : RenderRowSt) (layout_index : Nat) : Except PyErr RenderRowSt := do
  let cur_layout := (p.loaded_layouts.get? layout_index).getD none
  let is_last_column := layout_index = layouts_num - 1
  let cur_mem_regions_list := (mem_regions_lists.get? layout_index).getD []
  let cur_layout_item_index := (st.idxs.get? layout_index).getD 0
  let flags : Bool × Bool × Bool :=
    match cur_layout with
    | some cl =>
      (decide (cl.begin_address ≤ address ∧ address ≤ cl.end_address),
       decide (cur_layout_item_index = cur_mem_regions_list.length),
       decide (cur_layout_item_index ≥ cur_mem_regions_list.length))
    | none => (false, false, false)
  let is_address_in_layout := flags.1
  let is_layout_items_just_finished := flags.2.1
  let is_layouts_items_finished := flags.2.2
  if !is_address_in_layout then
    let cell_text := charRep ' ' cell_max_len
    let is_separate_line_needed := is_layout_items_just_finished || is_first_address
    let cell_block := getCell p cell_text is_separate_line_needed is_last_column false
    let cur0 := appendCellLine p st.cur0 cell_block.1
    let cur1 := appendCellLine p st.cur1 cell_block.2
    let table_last_line :=
      if is_last_address then
        appendCellLine p st.table_last_line (getCell p "" false is_last_column false).1
      else st.table_last_line
    let idxs :=
      if is_layouts_items_finished then
        st.idxs.set layout_index (cur_layout_item_index + 1)
      else st.idxs
    return { cur0 := cur0, cur1 := cur1, idxs := idxs,
             table_last_line := table_last_line }
  else
    -- Use the last layout item as data provider if the cursor ran out.
    let cur_layout_item ←
      if is_layouts_items_finished then
        pyGet cur_mem_regions_list ((cur_layout_item_index : Int) - 1)
      else
        pyGet cur_mem_regions_list (cur_layout_item_index : Int)
    let new_data_cell_block_condition := decide (address = cur_layout_item.begin_address)
    let step ←
      if new_data_cell_block_condition then
        let cell_text :=
          if cur_layout_item.unused then unused_cell_str
          else getMemRegionId p (some cur_layout_item)
        pure (cell_text, st.idxs.set layout_index (cur_layout_item_index + 1))
      else do
        let cur_layout_item ← pyGet cur_mem_regions_list ((cur_layout_item_index : Int) - 1)
        let cell_text :=
          if cur_layout_item.unused then unused_cell_str else empty_cell_str
        pure (cell_text, st.idxs)
    let cell_block := getCell p step.1 new_data_cell_block_condition is_last_column
    let cur0 := appendCellLine p st.cur0 cell_block.1
    let cur1 := appendCellLine p st.cur1 cell_block.2
    let table_last_line :=
      if is_last_address then
        appendCellLine p st.table_last_line (getCell p "" true is_last_column false).1
      else st.table_last_line
    return { cur0 := cur0, cur1 := cur1, idxs := step.2,
             table_last_line := table_last_line }

/-- One breakpoint row (the body of the `for address` loop, lines 471-535):
fold the columns, then append the two produced lines to the result. -/
def renderRow (p : MemoryLayoutPrinter) (all_addresses : List Int)
    (layouts_num : Nat) (mem_regions_lists : List (List MemoryBlock))
    (unused_cell_str empty_cell_str : String) (cell_max_len : Nat)
    (st : List Nat × List String × String × Bool) (address : Int) :
    Except PyErr (List Nat × List String × String × Bool) := do
  let (idxs, result, table_last_line, is_first_address) := st
  let is_last_address := decide (all_addresses.getLast? = some address)
  let rowSt ← (List.range layouts_num).foldlM
    (renderColumn p address is_first_address is_last_address layouts_num
      mem_regions_lists unused_cell_str empty_cell_str cell_max_len)
    { cur0 := "", cur1 := "", idxs := idxs, table_last_line := table_last_line }
  return (rowSt.idxs, result ++ [rowSt.cur0, rowSt.cur1], rowSt.table_last_line, false)

/-- The rendering part of `to_text` after the derived widths have been
computed and saved (lines 450-538): header block, one two-line block per
breakpoint address, one closing border line, joined into one string. -/
def renderBody (p : MemoryLayoutPrinter) (all_addresses : List Int)
    (mem_regions_lists : List (List MemoryBlock)) (layouts_num : Nat) :
    Except PyErr String := do
  let cell_max_len := p.config.cell_max_length
  let unused_cell_str :=
    charRep p.settings.unused_data_filler_char
      (p.config.cell_max_length - 2 * p.settings.text_offset)
  let empty_cell_str := charRep ' ' cell_max_len
  let result : List String :=
    if ¬ p.config.no_headers then
      let hdr := (List.range p.headers.length).foldl
        (fun (acc : String × String) header_index =>
          let is_last_header_column := header_index = p.headers.length - 1
          let header := (p.headers.get? header_index).getD ""
          let header_cell_strings := getCell p header true is_last_header_column
          (appendCellLine p acc.1 header_cell_strings.1,
           appendCellLine p acc.2 header_cell_strings.2)) ("", "")
      [hdr.1, hdr.2]
    else []
  let (_, result, table_last_line, _) ← all_addresses.foldlM
    (renderRow p all_addresses layouts_num mem_regions_lists unused_cell_str
      empty_cell_str cell_max_len)
    (List.replicate layouts_num 0, result, "", true)
  return String.join (result ++ [table_last_line])

/-- The `data_max_len` double loop of `to_text` (lines 438-442): the longest
formatted block label over all cells, computed with the just-updated
`_calculated_max_address_digits`. -/
def dataMaxLen (p : MemoryLayoutPrinter)
    (mem_regions_lists : List (List MemoryBlock)) : Nat :=
  mem_regions_lists.foldl
    (fun dm l => l.foldl
      (fun dm2 item => max dm2 (getMemRegionId p (some item)).length) dm) 0

/-- `MemoryLayoutPrinter.to_text()` (lines 421-538).  Returns the rendering
result (or the propagated runtime error) **and** the final renderer state:
the method mutates `self._calculated_max_address_digits` and — notably —
persists the computed cell width into `self._config.cell_max_length`
(`max(calculated, previous)`), a lasting change to the shared configuration
object.  On an empty address-breakpoint set it returns `''` without touching
any state. -/
def MemoryLayoutPrinter.to_text (p : MemoryLayoutPrinter) :
    (Except PyErr String) × MemoryLayoutPrinter :=
  match (get_merged_addresses_list p.loaded_layouts).getLast? with
  | none => (.ok "", p)
  | some last_address =>
    let all_addresses := get_merged_addresses_list p.loaded_layouts
    let p := { p with calculated_max_address_digits := hex_digits last_address }
    let mem_regions_lists := p.loaded_layouts.map (fun ol =>
      match ol with
      | some l => l.to_list
      | none => [])
    let layouts_num := p.loaded_layouts.length
    let data_max_len := dataMaxLen p mem_regions_lists
    let header_max_len := max_strlen_in_list p.headers
    let cell_data_max_len := max (max data_max_len header_max_len) p.config.cell_min_length
    let calculated_cell_max_len := cell_data_max_len + 2 * p.settings.text_offset
    -- `self._config.cell_max_length = max(calculated_cell_max_len, self._config.cell_max_length)`
    let cfg2 := { p.config with
      cell_max_length := max calculated_cell_max_len p.config.cell_max_length }
    let p := { p with config := cfg2 }
    (renderBody p all_addresses mem_regions_lists layouts_num, p)

/-! ## Renderer claims -/

theorem merged_addresses_foldl_none :
    ∀ (l : List (Option MemoryLayout)) (acc : List Int),
      (∀ ol ∈ l, ol = none) →
      l.foldl (fun acc ol =>
        match ol with
        | none => acc
        | some lay => lay.regions.foldl
            (fun a r => insertSortedDedup r.begin_address a) acc) acc = acc := by
  intro l
  induction l with
  | nil => intro acc _; rfl
  | cons o t ih =>
    intro acc h
    have ho : o = none := h o (by simp)
    subst ho
    exact ih acc (fun x hx => h x (List.mem_cons_of_mem _ hx))

/-- **C9** — a renderer whose loaded layouts contribute no block start
addresses (in particular: no layouts at all, or only absent layouts) renders
to the empty string without touching any state and without raising. -/
theorem claim_C9_empty_render (p : MemoryLayoutPrinter) :
    ((∀ ol ∈ p.loaded_layouts, ol = none) →
      get_merged_addresses_list p.loaded_layouts = []) ∧
    (get_merged_addresses_list p.loaded_layouts = [] →
      p.to_text = (.ok "", p)) := by
  constructor
  · intro h
    unfold get_merged_addresses_list
    exact merged_addresses_foldl_none _ _ h
  · intro h
    unfold MemoryLayoutPrinter.to_text
    rw [h]
    rfl

/-- Witness for C9: the freshly constructed renderer (no layouts) renders to
the empty string. -/
theorem claim_C9_witness :
    (∀ ol ∈ (mkMemoryLayoutPrinter).loaded_layouts, ol = none) ∧
    (mkMemoryLayoutPrinter).to_text = (.ok "", mkMemoryLayoutPrinter) := by
  refine ⟨by simp [mkMemoryLayoutPrinter], ?_⟩
  exact (claim_C9_empty_render mkMemoryLayoutPrinter).2
    ((claim_C9_empty_render mkMemoryLayoutPrinter).1 (by simp [mkMemoryLayoutPrinter]))

/-- **C8** — `add_layout` with any explicit non-negative position raises
`TypeError` (the source passes the arguments of `list.insert` swapped), so
the documented pad-with-blank-columns behaviour is unreachable. -/
theorem claim_C8_add_layout_position (p : MemoryLayoutPrinter)
    (layout : Option MemoryLayout) (header : String) (position : Int)
    (h : 0 ≤ position) :
    p.add_layout layout header position = .error .typeError := by
  unfold MemoryLayoutPrinter.add_layout
  rw [if_neg (by omega)]

/-- Witness for C8: inserting at column 0 of a fresh renderer raises. -/
theorem claim_C8_witness :
    0 ≤ (0 : Int) ∧
    (mkMemoryLayoutPrinter).add_layout none "h" 0 = .error .typeError :=
  ⟨by decide, claim_C8_add_layout_position mkMemoryLayoutPrinter none "h" 0 (by decide)⟩

/-- A small layout used for the renderer state experiments: `[0,3]` with one
block `(0,4,'A')` (reachable: one append). -/
def smallLayout : MemoryLayout :=
  MemoryLayout.mk 0 4 [MemoryBlock.mk 0 4 (some "A") false] 1

/-- A 58-character header, wider than the default maximum cell width. -/
def wideHeader : String :=
  "wide reference layout used to compare two memory maps side"

/-- A renderer (default configuration) loaded with `smallLayout` under the
wide header. -/
def widePrinter : MemoryLayoutPrinter :=
  { mkMemoryLayoutPrinter with
    loaded_layouts := [some smallLayout], headers := [wideHeader] }

/-- The same renderer after the wide render, re-used with a short header for
the same layout (`loaded_layouts` and `headers` are plain public attributes
in the source). -/
def reusedPrinter : MemoryLayoutPrinter :=
  { (widePrinter.to_text).2 with headers := ["h"] }

/-- A fresh renderer with the identical constructor configuration, layouts
and short header. -/
def freshPrinter : MemoryLayoutPrinter :=
  { mkMemoryLayoutPrinter with
    loaded_layouts := [some smallLayout], headers := ["h"] }

set_option maxRecDepth 100000

/-- `to_text` **does** change a persistent configuration field: the wide
render bumps `config.cell_max_length` from 45 to 60, and a renderer re-used
after it produces different output than a fresh renderer on the identical
inputs — the stale width leaks into the later render. -/
theorem claim_C6_counterexample :
    (widePrinter.to_text).2.config.cell_max_length ≠
      widePrinter.config.cell_max_length ∧
    reusedPrinter.loaded_layouts = freshPrinter.loaded_layouts ∧
    reusedPrinter.headers = freshPrinter.headers ∧
    reusedPrinter.config.cell_max_length ≠ freshPrinter.config.cell_max_length ∧
    (reusedPrinter.to_text).1 ≠ (freshPrinter.to_text).1 := by
  exact ⟨by decide, rfl, rfl, by decide, by decide⟩

/-- **C6** (amended) — `to_text` recomputes `_calculated_max_address_digits`
fresh from the current call's addresses, but it *persists* the computed cell
width onto the shared configuration object: afterwards
`config.cell_max_length` is the maximum of the computed width and its
previous value (so it never shrinks), every other configuration field is
untouched, and with an empty address set the state is completely untouched.
Because the configuration is carried across calls, output is **not**
independent of earlier `to_text` calls (see the counterexample). -/
theorem claim_C6_to_text_state (p : MemoryLayoutPrinter) :
    p.config.cell_max_length ≤ (p.to_text).2.config.cell_max_length ∧
    (p.to_text).2.config =
      { p.config with cell_max_length := (p.to_text).2.config.cell_max_length } ∧
    (p.to_text).2.loaded_layouts = p.loaded_layouts ∧
    (p.to_text).2.headers = p.headers ∧
    (p.to_text).2.settings = p.settings ∧
    (∀ la, (get_merged_addresses_list p.loaded_layouts).getLast? = some la →
      (p.to_text).2.calculated_max_address_digits = hex_digits la) ∧
    (get_merged_addresses_list p.loaded_layouts = [] → (p.to_text).2 = p) := by
  unfold MemoryLayoutPrinter.to_text
  cases hg : (get_merged_addresses_list p.loaded_layouts).getLast? with
  | none =>
    simp only [hg]
    refine ⟨le_refl _, by trivial, by trivial, by trivial, by trivial, ?_, ?_⟩
    · intro la hla
      exact Option.noConfusion hla
    · intro _
      trivial
  | some la =>
    simp only [hg]
    refine ⟨le_max_right _ _, ?_, by trivial, by trivial, by trivial, ?_, ?_⟩
    · trivial
    · intro la2 hla2
      obtain rfl := Option.some.inj hla2
      rfl
    · intro he
      rw [he] at hg
      simp at hg

/-- Witness for C6 (its last two conjuncts are conditional): instantiated at
the fresh empty renderer. -/
theorem claim_C6_witness :
    get_merged_addresses_list (mkMemoryLayoutPrinter).loaded_layouts = [] ∧
    ((mkMemoryLayoutPrinter).to_text).2 = mkMemoryLayoutPrinter := by
  refine ⟨rfl, ?_⟩
  exact (claim_C6_to_text_state mkMemoryLayoutPrinter).2.2.2.2.2.2 rfl

/-- The cell width `to_text` computes for the current call (lines 438-445):
the maximum of the longest formatted block label, the longest header and the
configured minimum, plus the fixed horizontal text padding
(`2 * text_offset`), using address digits recomputed from this call's
addresses. -/
def calculatedCellWidth (p : MemoryLayoutPrinter) : Nat :=
  match (get_merged_addresses_list p.loaded_layouts).getLast? with
  | none =>
    max (max (dataMaxLen p (p.loaded_layouts.map (fun ol =>
          match ol with
          | some l => l.to_list
          | none => []))) (max_strlen_in_list p.headers))
        p.config.cell_min_length
      + 2 * p.settings.text_offset
  | some la =>
    let p := { p with calculated_max_address_digits := hex_digits la }
    max (max (dataMaxLen p (p.loaded_layouts.map (fun ol =>
          match ol with
          | some l => l.to_list
          | none => []))) (max_strlen_in_list p.headers))
        p.config.cell_min_length
      + 2 * p.settings.text_offset

theorem charRep_length (c : Char) (n : Nat) : (charRep c n).length = n := by
  show (List.replicate n c).length = n
  exact List.length_replicate n c

theorem pyCenter_length (s : String) (w : Nat) :
    (pyCenter s w).length = max w s.length := by
  unfold pyCenter
  by_cases h : w ≤ s.length
  · rw [if_pos h]
    omega
  · rw [if_neg h]
    simp only [String.length_append, charRep_length]
    omega

theorem pyTake_length (s : String) (n : Nat) :
    (pyTake s n).length = min n s.length := by
  show (s.data.take n).length = min n s.length
  exact List.length_take n s.data

/-- Every cell line produced by `get_cell` has the fixed width
`cell_max_length + 2` (plus the newline when `is_endl`): overlong text is
truncated to `cell_max_length` and shorter text is centre-padded. -/
theorem charStr_length (c : Char) : (charStr c).length = 1 := rfl

theorem getCell_data_line_length (p : MemoryLayoutPrinter) (text : String)
    (s e d : Bool) :
    ((getCell p text s e d).2).length =
      p.config.cell_max_length + 2 + (if e then 1 else 0) := by
  have hnl : ("\n" : String).length = 1 := rfl
  unfold getCell cellDataOnly
  by_cases htr : text.length > p.config.cell_max_length
  · simp only [htr, if_true]
    cases e <;>
      simp [String.length_append, pyCenter_length, charStr_length,
        pyTake_length, hnl] <;>
      omega
  · simp only [htr, if_false]
    cases e <;>
      simp [String.length_append, pyCenter_length, charStr_length,
        pyTake_length, hnl] <;>
      omega

/-- **C7** (amended) — the cell content width of a `to_text` call equals
`max(longest label, longest header, cell_min_length) + 2*text_offset`, but it
is **not** clamped to the configured maximum: the configured
`cell_max_length` is *raised* to the computed width whenever the computed
width is larger (the saved width is the max of the two, and so can exceed
the configured maximum).  Cell text longer than the final width is truncated
by `get_cell`, so every data line has the fixed width `cell_max_length + 2`. -/
theorem claim_C7_cell_width (p : MemoryLayoutPrinter)
    (h : get_merged_addresses_list p.loaded_layouts ≠ []) :
    (p.to_text).2.config.cell_max_length =
      max (calculatedCellWidth p) p.config.cell_max_length ∧
    (∀ (q : MemoryLayoutPrinter) (text : String) (s e d : Bool),
      ((getCell q text s e d).2).length =
        q.config.cell_max_length + 2 + (if e then 1 else 0)) := by
  refine ⟨?_, fun q text s e d => getCell_data_line_length q text s e d⟩
  unfold MemoryLayoutPrinter.to_text calculatedCellWidth
  cases hg : (get_merged_addresses_list p.loaded_layouts).getLast? with
  | none =>
    exact absurd (List.getLast?_eq_none_iff.mp hg) h
  | some la =>
    rfl

/-- The rendered cell width **exceeds** the configured maximum: with the
default configuration (`cell_max_length = 45`) and a 58-character header the
render uses width 60, and every line of the output is 62 characters wide —
nothing is clamped to 45. -/
theorem claim_C7_counterexample :
    widePrinter.config = mkMemoryLayoutPrinterConfig ∧
    widePrinter.config.cell_max_length = 45 ∧
    (widePrinter.to_text).2.config.cell_max_length = 60 ∧
    (match (widePrinter.to_text).1 with
      | .ok out => (out.data.takeWhile (fun c => decide (c ≠ '\n'))).length
      | .error _ => 0) = 62 := by
  exact ⟨rfl, rfl, by decide, by decide⟩

/-- Witness for C7 at the wide-header renderer: its saved width is the
(un-clamped) maximum of the computed width and the configured maximum. -/
theorem claim_C7_witness :
    get_merged_addresses_list widePrinter.loaded_layouts ≠ [] ∧
    ((widePrinter.to_text).2.config.cell_max_length =
      max (calculatedCellWidth widePrinter) widePrinter.config.cell_max_length ∧
    (∀ (q : MemoryLayoutPrinter) (text : String) (s e d : Bool),
      ((getCell q text s e d).2).length =
        q.config.cell_max_length + 2 + (if e then 1 else 0))) := by
  refine ⟨by decide, ?_⟩
  exact claim_C7_cell_width widePrinter (by decide)

/-! ## Pointer-level model of `linked_list.py`

`append_mem_block` and `fill_gaps` only act through the forward chain, but
`merge_unused` and `remove` relink through the stored `_prev` pointers, which
`insert_after` fails to maintain (it never assigns `next_item._prev`, nor
`self._tail`).  To capture this the list is modelled at the node level: nodes
live in an arena (`store`, node id = allocation index, matching Python's heap
objects), with the `_head`/`_tail` fields and the `_items` bookkeeping list
of the source. -/

/-- `LinkedListItem`: `_data`, `_prev`, `_next`. -/
structure LLNode (α : Type) where
  data : α
  prev : Option Nat := none
  next : Option Nat := none
deriving DecidableEq, Repr

/-- `LinkedList`: arena of all ever-allocated nodes, `_head`, `_tail`
(a cached reference that `insert_after` forgets to maintain), and `_items`
(which `remove` never shrinks). -/
structure PyLinkedList (α : Type) where
  store : List (LLNode α) := []
  head : Option Nat := none
  tailF : Option Nat := none
  items : List Nat := []
deriving DecidableEq, Repr

/-- Node lookup by id. -/
def getN (st : PyLinkedList α) (i : Nat) : Option (LLNode α) := st.store.get? i

/-- In-place node update by id. -/
def setN (st : PyLinkedList α) (i : Nat) (n : LLNode α) : PyLinkedList α :=
  { st with store := st.store.set i n }

/-- `LinkedList.append(data)`.  When `_items` is non-empty the source
executes `self._tail._next = new`, an `AttributeError` if `_tail` is `None`
(only reachable after `remove` emptied the chain). -/
def LLappend (st : PyLinkedList α) (d : α) : Except PyErr (PyLinkedList α) :=
  let newId := st.store.length
  if st.items.length = 0 then
    .ok { store := st.store ++ [{ data := d }], head := some newId,
          tailF := some newId, items := st.items ++ [newId] }
  else
    match st.tailF with
    | none => .error .attributeError
    | some t =>
      match getN st t with
      | none => .error .attributeError   -- unreachable: `_tail` is a live node
      | some tn =>
        let st1 := setN st t { tn with next := some newId }
        .ok { store := st1.store ++ [{ data := d, prev := some t }],
              head := st1.head, tailF := some newId,
              items := st1.items ++ [newId] }

/-- `LinkedList.insert_after(item, data)`: links `new.prev`, `new.next` and
`item.next` — but **not** `next_item._prev` and **not** `self._tail` (the
source omits both updates); the new node is appended to `_items` even when
`item` is not a member. -/
def LLinsert_after (st : PyLinkedList α) (i : Nat) (d : α) :
    PyLinkedList α × Nat :=
  let newId := st.store.length
  match getN st i with
  | none =>
    ({ st with store := st.store ++ [{ data := d }],
               items := st.items ++ [newId] }, newId)
  | some n =>
    if i ∈ st.items then
      let st1 := setN st i { n with next := some newId }
      ({ st1 with store := st1.store ++ [{ data := d, prev := some i, next := n.next }],
                  items := st1.items ++ [newId] }, newId)
    else
      ({ st with store := st.store ++ [{ data := d }],
                 items := st.items ++ [newId] }, newId)

/-- `LinkedList.insert_before(item, data)`: links both directions around the
insertion point, reading `item.prev()` — which may be stale after an earlier
`insert_after`. -/
def LLinsert_before (st : PyLinkedList α) (i : Nat) (d : α) :
    PyLinkedList α × Nat :=
  let newId := st.store.length
  match getN st i with
  | none =>
    ({ st with store := st.store ++ [{ data := d }],
               items := st.items ++ [newId] }, newId)
  | some n =>
    if i ∈ st.items then
      let prevI := n.prev
      let st1 := setN st i { n with prev := some newId }
      let st2 :=
        match prevI with
        | some pid =>
          match getN st1 pid with
          | some pn => setN st1 pid { pn with next := some newId }
          | none => st1
        | none => { st1 with head := some newId }
      ({ st2 with store := st2.store ++ [{ data := d, prev := prevI, next := some i }],
                  items := st2.items ++ [newId] }, newId)
    else
      ({ st with store := st.store ++ [{ data := d }],
                 items := st.items ++ [newId] }, newId)

/-- `LinkedList.remove(item)`: unlinks through the stored `prev`/`next`
pointers and updates `_head`/`_tail`; `_items` is **not** touched. -/
def LLremove (st : PyLinkedList α) (i : Nat) : PyLinkedList α :=
  match getN st i with
  | none => st
  | some n =>
    let p := n.prev
    let nx := n.next
    let st1 := setN st i { n with prev := none, next := none }
    let st2 :=
      match p with
      | some pid =>
        match getN st1 pid with
        | some pn => setN st1 pid { pn with next := nx }
        | none => st1
      | none => { st1 with head := nx }
    match nx with
    | some nid =>
      match getN st2 nid with
      | some nn => setN st2 nid { nn with prev := p }
      | none => st2
    | none => { st2 with tailF := p }

/-- The forward walk from a node id: the node ids reachable through `next`.
Bounded by fuel; every reachable state in this development is acyclic and its
chain is no longer than the arena, so `store.length + 1` fuel is exact. -/
def walkIds (st : PyLinkedList α) : Nat → Option Nat → List Nat
  | 0, _ => []
  | _, none => []
  | fuel + 1, some i => i :: walkIds st fuel ((getN st i).bind LLNode.next)

/-- `LinkedList.to_list()`: the data of the forward chain from `_head`. -/
def LLtoList (st : PyLinkedList α) : List α :=
  (walkIds st (st.store.length + 1) st.head).filterMap
    (fun i => (getN st i).map LLNode.data)

/-- `LinkedList.count()` — `len(self._items)`. -/
def LLcount (st : PyLinkedList α) : Nat := st.items.length

/-- `LinkedList.tail()`: walks `next` from `_head` to the last node. -/
def tailWalk (st : PyLinkedList α) : Nat → Option Nat → Option Nat
  | 0, cur => cur
  | fuel + 1, cur =>
    match cur with
    | none => none
    | some i =>
      match (getN st i).bind LLNode.next with
      | none => some i
      | some j => tailWalk st fuel (some j)

def LLtail (st : PyLinkedList α) : Option Nat :=
  tailWalk st (st.store.length + 1) st.head

/-- `LinkedList.from_list(items_list)`. -/
def LLfromList (l : List α) : Except PyErr (PyLinkedList α) :=
  l.foldlM LLappend {}

/-! ## `MemoryLayout` over the pointer-level list (for `merge_unused`) -/

/-- `MemoryLayout` with its `regions` store at the pointer level. -/
structure MemoryLayoutLL where
  begin_address : Int
  size : Int
  regions : PyLinkedList MemoryBlock := {}
deriving DecidableEq, Repr

def mkMemoryLayoutLL (begin_address size : Int) : MemoryLayoutLL :=
  { begin_address := begin_address, size := size }

def MemoryLayoutLL.end_address (ml : MemoryLayoutLL) : Int :=
  ml.begin_address + ml.size - 1

/-- The scan of `append_mem_block` at the pointer level (`low_region`,
`high_region = low_region.next()`; insert after `low_region` when the block
fits between the pair).  Returns the updated list, or `none` when the loop
runs off the chain (the source then raises). -/
def scanInsertLL (st : PyLinkedList MemoryBlock) (nb : MemoryBlock) :
    Nat → Nat → Option (PyLinkedList MemoryBlock)
  | _, 0 => none
  | lowI, fuel + 1 =>
    match getN st lowI with
    | none => none
    | some lowN =>
      match lowN.next with
      | none => none
      | some highI =>
        match getN st highI with
        | none => none
        | some highN =>
          if nb.begin_address > lowN.data.end_address ∧
              nb.end_address < highN.data.begin_address then
            some (LLinsert_after st lowI nb).1
          else
            scanInsertLL st nb highI fuel

/-- `MemoryLayout.append_mem_block` (strict variant) over the pointer-level
store — the same branch structure as the list-level embedding above, with
`head()`, `tail()`, `count()` and the pair scan reading the live pointers. -/
def appendMemBlockLL (ml : MemoryLayoutLL) (nb : MemoryBlock) :
    Except PyErr MemoryLayoutLL :=
  if nb.begin_address < ml.begin_address ∨ nb.end_address > ml.end_address then
    .error .memoryLayoutError
  else
    match ml.regions.head with
    | none => do
      let st ← LLappend ml.regions nb
      .ok { ml with regions := st }
    | some firstI =>
      match getN ml.regions firstI with
      | none => .error .attributeError   -- unreachable: `_head` is live
      | some firstN =>
        if nb.end_address < firstN.data.begin_address then
          .ok { ml with regions := (LLinsert_before ml.regions firstI nb).1 }
        else
          match LLtail ml.regions with
          | none => .error .attributeError   -- unreachable: head is not None
          | some tailI =>
            match getN ml.regions tailI with
            | none => .error .attributeError
            | some tailN =>
              if nb.begin_address > tailN.data.end_address then
                .ok { ml with regions := (LLinsert_after ml.regions tailI nb).1 }
              else if LLcount ml.regions = 1 then
                .error .noSpaceError
              else
                match scanInsertLL ml.regions nb firstI
                    (ml.regions.store.length + 1) with
                | some st => .ok { ml with regions := st }
                | none => .error .noSpaceError

/-- The loop of `MemoryLayout.merge_unused` (lines 232-257): walks `region`,
remembering `merge_base`, and on two consecutive unused nodes inserts the
merged block before `merge_base` (via the possibly-stale `prev` pointer),
removes both, and continues from the merged node.  Fuel-bounded; every run in
this development terminates by reaching `region = None` well within the given
fuel. -/
def mergeLoopLL (st : PyLinkedList MemoryBlock) :
    Nat → Option Nat → Option Nat → Except PyErr (PyLinkedList MemoryBlock)
  | 0, _, _ => .ok st
  | fuel + 1, merge_base, region =>
    match region with
    | none => .ok st
    | some r =>
      match getN st r with
      | none => .ok st   -- unreachable: `region` is a live node
      | some rn =>
        if !rn.data.unused then
          mergeLoopLL st fuel none rn.next
        else
          match merge_base with
          | none => mergeLoopLL st fuel (some r) rn.next
          | some mb =>
            match getN st mb with
            | none => .ok st   -- unreachable
            | some mbn => do
              let new_size :=
                rn.data.end_address - mbn.data.begin_address + 1
              let merged ← mkMemoryBlock mbn.data.begin_address new_size
                (some mbn.data.identifierStr) true
              let ins := LLinsert_before st mb merged
              let st2 := LLremove ins.1 mb
              let st3 := LLremove st2 r
              mergeLoopLL st3 fuel none (some ins.2)

/-- `MemoryLayout.merge_unused`. -/
def mergeUnusedLL (fuel : Nat) (ml : MemoryLayoutLL) :
    Except PyErr MemoryLayoutLL :=
  match ml.regions.head with
  | none => .ok ml
  | some h =>
    (mergeLoopLL ml.regions fuel none (some h)).map
      (fun st => { ml with regions := st })

/-- The `__eq__` walk of `MemoryLayout` over the pointer-level store. -/
def eqWalkLL (sa sb : PyLinkedList MemoryBlock) :
    Nat → Option Nat → Option Nat → Except PyErr Bool
  | 0, _, _ => .ok true
  | fuel + 1, ra, rb =>
    match ra with
    | none => .ok true
    | some i =>
      match getN sa i with
      | none => .ok true   -- unreachable: the walk visits live nodes
      | some na =>
        match rb with
        | none => .error .attributeError
        | some j =>
          match getN sb j with
          | none => .error .attributeError
          | some nb =>
            if blockEqPy na.data nb.data && (na.data.unused == nb.data.unused) then
              eqWalkLL sa sb fuel na.next nb.next
            else .ok false

/-- `MemoryLayout.__eq__` over the pointer-level store: begin address, size,
`regions.count()` (= `len(_items)`), then the pairwise walk. -/
def layoutEqLLPy (a b : MemoryLayoutLL) : Except PyErr Bool :=
  if a.begin_address == b.begin_address && a.size == b.size then
    if LLcount a.regions == LLcount b.regions then
      eqWalkLL a.regions b.regions (a.regions.store.length + 1)
        a.regions.head b.regions.head
    else .ok false
  else .ok false

/-! ## Facts about the pointer-level list: `remove`, `count`, `merge_unused` -/

/-- `o` starts a forward chain that visits exactly the node ids `ids`. -/
def isChainB (st : PyLinkedList α) : Option Nat → List Nat → Bool
  | o, [] => o == none
  | o, i :: rest =>
    match o, getN st i with
    | some j, some n => j == i && isChainB st n.next rest
    | _, _ => false

/-- The data stored at a list of node ids. -/
def chainData (st : PyLinkedList α) (ids : List Nat) : List α :=
  ids.filterMap (fun j => (getN st j).map LLNode.data)

theorem getN_setN_ne {st : PyLinkedList α} {i j : Nat} {m : LLNode α}
    (h : j ≠ i) : getN (setN st i m) j = getN st j :=
  List.get?_set_ne m st.store h.symm

theorem getN_setN_self {st : PyLinkedList α} {i : Nat} {n : LLNode α}
    (hi : getN st i = some n) (m : LLNode α) :
    getN (setN st i m) i = some m := by
  have : i < st.store.length := (List.get?_eq_some.mp hi).choose
  exact List.get?_set_eq_of_lt m this

theorem setN_store_length (st : PyLinkedList α) (i : Nat) (m : LLNode α) :
    (setN st i m).store.length = st.store.length :=
  List.length_set st.store i m

theorem isChainB_valid {st : PyLinkedList α} :
    ∀ {ids : List Nat} {o : Option Nat}, isChainB st o ids = true →
      ∀ j ∈ ids, ∃ n, getN st j = some n := by
  intro ids
  induction ids with
  | nil => intro o _ j hj; cases hj
  | cons x rest ih =>
    intro o h j hj
    unfold isChainB at h
    cases ho : o with
    | none => rw [ho] at h; simp at h
    | some k =>
      rw [ho] at h
      cases hx : getN st x with
      | none => rw [hx] at h; simp at h
      | some n =>
        rw [hx] at h
        simp only [Bool.and_eq_true, beq_iff_eq] at h
        rcases List.mem_cons.1 hj with rfl | hj
        · exact ⟨n, hx⟩
        · exact ih h.2 j hj

theorem isChainB_lt {st : PyLinkedList α} {ids : List Nat} {o : Option Nat}
    (h : isChainB st o ids = true) : ∀ j ∈ ids, j < st.store.length := by
  intro j hj
  obtain ⟨n, hn⟩ := isChainB_valid h j hj
  exact (List.get?_eq_some.mp hn).choose

theorem isChainB_length_le {st : PyLinkedList α} {ids : List Nat}
    {o : Option Nat} (h : isChainB st o ids = true) (hnd : ids.Nodup) :
    ids.length ≤ st.store.length := by
  have hs : ids ⊆ List.range st.store.length := by
    intro x hx
    exact List.mem_range.mpr (isChainB_lt h x hx)
  have := (List.subperm_of_subset hnd hs).length_le
  simpa using this

theorem walkIds_eq {st : PyLinkedList α} :
    ∀ {ids : List Nat} {o : Option Nat} {fuel : Nat},
      isChainB st o ids = true → ids.length ≤ fuel →
      walkIds st fuel o = ids := by
  intro ids
  induction ids with
  | nil =>
    intro o fuel h _
    unfold isChainB at h
    have : o = none := by simpa using h
    subst this
    cases fuel <;> rfl
  | cons x rest ih =>
    intro o fuel h hf
    unfold isChainB at h
    cases ho : o with
    | none => rw [ho] at h; simp at h
    | some k =>
      rw [ho] at h
      cases hx : getN st x with
      | none => rw [hx] at h; simp at h
      | some n =>
        rw [hx] at h
        simp only [Bool.and_eq_true, beq_iff_eq] at h
        obtain ⟨rfl, hrest⟩ := h
        cases fuel with
        | zero => simp at hf
        | succ f =>
          show k :: walkIds st f ((getN st k).bind LLNode.next) = k :: rest
          rw [hx]
          rw [show (some n).bind LLNode.next = n.next from rfl]
          rw [ih hrest (by simpa using hf)]

theorem LLtoList_eq_chainData {st : PyLinkedList α} {ids : List Nat}
    (h : isChainB st st.head ids = true) (hnd : ids.Nodup) :
    LLtoList st = chainData st ids := by
  unfold LLtoList chainData
  rw [walkIds_eq h (by have := isChainB_length_le h hnd; omega)]

theorem chainData_congr {st st' : PyLinkedList α} {ids : List Nat}
    (h : ∀ j ∈ ids, (getN st' j).map LLNode.data = (getN st j).map LLNode.data) :
    chainData st' ids = chainData st ids :=
  List.filterMap_congr h

/-- `o` starts a forward chain that visits exactly `ids` and then continues
with `o'` (the `next` pointer of the last visited node; `o` itself when `ids`
is empty). -/
def isChainSegB (st : PyLinkedList α) : Option Nat → List Nat → Option Nat → Bool
  | o, [], o' => o == o'
  | o, i :: rest, o' =>
    match o, getN st i with
    | some j, some n => j == i && isChainSegB st n.next rest o'
    | _, _ => false

theorem isChainSegB_nil (st : PyLinkedList α) (o o' : Option Nat) :
    isChainSegB st o [] o' = (o == o') := rfl

theorem isChainSegB_none_cons (st : PyLinkedList α) (x : Nat) (rest : List Nat)
    (o' : Option Nat) : isChainSegB st none (x :: rest) o' = false := rfl

theorem isChainSegB_cons_some (st : PyLinkedList α) {x : Nat} {n : LLNode α}
    (hx : getN st x = some n) (j : Nat) (rest : List Nat) (o' : Option Nat) :
    isChainSegB st (some j) (x :: rest) o' =
      (j == x && isChainSegB st n.next rest o') := by
  conv_lhs => unfold isChainSegB
  rw [hx]

theorem isChainSegB_cons_noneN (st : PyLinkedList α) {x : Nat}
    (hx : getN st x = none) (j : Nat) (rest : List Nat) (o' : Option Nat) :
    isChainSegB st (some j) (x :: rest) o' = false := by
  conv_lhs => unfold isChainSegB
  rw [hx]

theorem isChainB_eq_seg (st : PyLinkedList α) :
    ∀ (ids : List Nat) (o : Option Nat),
      isChainB st o ids = isChainSegB st o ids none := by
  intro ids
  induction ids with
  | nil => intro o; rfl
  | cons x rest ih =>
    intro o
    cases o with
    | none => rfl
    | some j =>
      conv_lhs => unfold isChainB
      cases hx : getN st x with
      | none =>
        rw [isChainSegB_cons_noneN st hx]
      | some n =>
        rw [isChainSegB_cons_some st hx]
        show (j == x && isChainB st n.next rest) = _
        rw [ih]

theorem isChainSegB_nil_inv {st : PyLinkedList α} {o o' : Option Nat}
    (h : isChainSegB st o [] o' = true) : o = o' := by
  rw [isChainSegB_nil] at h
  exact beq_iff_eq.mp h

theorem isChainSegB_cons_inv {st : PyLinkedList α} {o o' : Option Nat}
    {x : Nat} {rest : List Nat} (h : isChainSegB st o (x :: rest) o' = true) :
    o = some x ∧ ∃ n, getN st x = some n ∧ isChainSegB st n.next rest o' = true := by
  cases o with
  | none => rw [isChainSegB_none_cons] at h; exact absurd h (by simp)
  | some j =>
    cases hx : getN st x with
    | none => rw [isChainSegB_cons_noneN st hx] at h; exact absurd h (by simp)
    | some n =>
      rw [isChainSegB_cons_some st hx] at h
      simp only [Bool.and_eq_true, beq_iff_eq] at h
      exact ⟨by rw [h.1], n, rfl, h.2⟩

theorem isChainSegB_append_iff {st : PyLinkedList α} :
    ∀ {A B : List Nat} {o o' : Option Nat},
      isChainSegB st o (A ++ B) o' = true ↔
        ∃ m, isChainSegB st o A m = true ∧ isChainSegB st m B o' = true := by
  intro A
  induction A with
  | nil =>
    intro B o o'
    simp only [List.nil_append]
    constructor
    · intro h
      exact ⟨o, by rw [isChainSegB_nil]; exact beq_self_eq_true o, h⟩
    · rintro ⟨m, hm, hB⟩
      rw [isChainSegB_nil_inv hm]
      exact hB
  | cons x rest ih =>
    intro B o o'
    constructor
    · intro h
      obtain ⟨ho, n, hx, hrest⟩ := isChainSegB_cons_inv h
      obtain ⟨m, h1, h2⟩ := ih.mp hrest
      subst ho
      refine ⟨m, ?_, h2⟩
      rw [isChainSegB_cons_some st hx, beq_self_eq_true, Bool.true_and]
      exact h1
    · rintro ⟨m, hA, hB⟩
      obtain ⟨ho, n, hx, hrest⟩ := isChainSegB_cons_inv hA
      subst ho
      rw [List.cons_append, isChainSegB_cons_some st hx, beq_self_eq_true,
        Bool.true_and]
      exact ih.mpr ⟨m, hrest, hB⟩

theorem isChainSegB_congr_next {st st' : PyLinkedList α} :
    ∀ {ids : List Nat} {o o' : Option Nat},
      isChainSegB st o ids o' = true →
      (∀ j ∈ ids, (getN st' j).map LLNode.next = (getN st j).map LLNode.next) →
      isChainSegB st' o ids o' = true := by
  intro ids
  induction ids with
  | nil => intro o o' h _; exact h
  | cons x rest ih =>
    intro o o' h hc
    obtain ⟨ho, n, hx, hrest⟩ := isChainSegB_cons_inv h
    subst ho
    have hx' : (getN st' x).map LLNode.next = some n.next := by
      rw [hc x (by simp), hx]
      rfl
    obtain ⟨n', hn', hnext⟩ : ∃ n', getN st' x = some n' ∧ n'.next = n.next := by
      cases hgx : getN st' x with
      | none => rw [hgx] at hx'; exact absurd hx' (by simp)
      | some n' => rw [hgx] at hx'; exact ⟨n', rfl, by simpa using hx'⟩
    rw [isChainSegB_cons_some st' hn', beq_self_eq_true, Bool.true_and, hnext]
    exact ih hrest (fun j hj => hc j (List.mem_cons_of_mem _ hj))

theorem setN_keep_data {st : PyLinkedList α} {k : Nat} {m : LLNode α}
    (hk : getN st k = some m) (p x : Option Nat) (j : Nat) :
    (getN (setN st k ⟨m.data, p, x⟩) j).map LLNode.data
      = (getN st j).map LLNode.data := by
  by_cases hjk : j = k
  · subst hjk
    rw [getN_setN_self hk, hk]
    rfl
  · rw [getN_setN_ne hjk]

theorem setN_keep_next {st : PyLinkedList α} {k : Nat} {m : LLNode α}
    (hk : getN st k = some m) (p : Option Nat) (j : Nat) :
    (getN (setN st k ⟨m.data, p, m.next⟩) j).map LLNode.next
      = (getN st j).map LLNode.next := by
  by_cases hjk : j = k
  · subst hjk
    rw [getN_setN_self hk, hk]
    rfl
  · rw [getN_setN_ne hjk]

theorem getN_head_upd (st : PyLinkedList α) (h : Option Nat) (j : Nat) :
    getN { st with head := h } j = getN st j := rfl

theorem getN_tailF_upd (st : PyLinkedList α) (t : Option Nat) (j : Nat) :
    getN { st with tailF := t } j = getN st j := rfl

theorem getN_ht_upd (st : PyLinkedList α) (h t : Option Nat) (j : Nat) :
    getN { st with head := h, tailF := t } j = getN st j := rfl

/-- `remove` on a node with no predecessor and no successor: the node is
cleared and both `_head` and `_tail` become `None`. -/
theorem LLremove_eq_nn {st : PyLinkedList α} {i : Nat} {n : LLNode α}
    (hn : getN st i = some n) (hp : n.prev = none) (hx : n.next = none) :
    LLremove st i =
      { setN st i { n with prev := none, next := none } with
        head := none, tailF := none } := by
  unfold LLremove
  rw [hn]
  simp only [hp, hx]

/-- `remove` on a node with no predecessor and a live successor `nid`. -/
theorem LLremove_eq_ns {st : PyLinkedList α} {i nid : Nat} {n nn : LLNode α}
    (hn : getN st i = some n) (hp : n.prev = none) (hx : n.next = some nid)
    (hni : nid ≠ i) (hnn : getN st nid = some nn) :
    LLremove st i =
      setN { setN st i { n with prev := none, next := none } with
             head := some nid } nid { nn with prev := none } := by
  unfold LLremove
  rw [hn]
  have h1 : getN { setN st i { n with prev := none, next := none } with
      head := some nid } nid = some nn := by
    rw [getN_head_upd, getN_setN_ne hni, hnn]
  simp only [hp, hx, h1]

/-- `remove` on a node with a live predecessor `pid` and no successor. -/
theorem LLremove_eq_sn {st : PyLinkedList α} {i pid : Nat} {n pn : LLNode α}
    (hn : getN st i = some n) (hp : n.prev = some pid) (hpi : pid ≠ i)
    (hpn : getN st pid = some pn) (hx : n.next = none) :
    LLremove st i =
      { setN (setN st i { n with prev := none, next := none }) pid
          { pn with next := none } with tailF := some pid } := by
  unfold LLremove
  rw [hn]
  have h1 : getN (setN st i { n with prev := none, next := none }) pid
      = some pn := by
    rw [getN_setN_ne hpi, hpn]
  simp only [hp, hx, h1]

/-- `remove` on a node with live predecessor `pid` and live successor `nid`. -/
theorem LLremove_eq_ss {st : PyLinkedList α} {i pid nid : Nat} {n pn nn : LLNode α}
    (hn : getN st i = some n) (hp : n.prev = some pid) (hpi : pid ≠ i)
    (hpn : getN st pid = some pn) (hx : n.next = some nid) (hni : nid ≠ i)
    (hnp : nid ≠ pid) (hnn : getN st nid = some nn) :
    LLremove st i =
      setN (setN (setN st i { n with prev := none, next := none }) pid
          { pn with next := some nid }) nid { nn with prev := some pid } := by
  unfold LLremove
  rw [hn]
  have h1 : getN (setN st i { n with prev := none, next := none }) pid
      = some pn := by
    rw [getN_setN_ne hpi, hpn]
  have h2 : getN (setN (setN st i { n with prev := none, next := none }) pid
      { pn with next := some nid }) nid = some nn := by
    rw [getN_setN_ne hnp, getN_setN_ne hni, hnn]
  simp only [hp, hx, h1, h2]

/-- `LinkedList.remove` on a chain node whose `_prev` pointer is accurate
(it names the node's actual predecessor in the forward chain): `_items` is
untouched, every node keeps its data, and the forward chain loses exactly
the removed id.  The accuracy hypothesis is essential: `insert_after` leaves
the next node's `_prev` stale, and removing such a node cuts the chain. -/
theorem LLremove_spec {st : PyLinkedList α} {A B : List Nat} {i : Nat}
    {n : LLNode α}
    (hch : isChainB st st.head (A ++ i :: B) = true)
    (hnd : (A ++ i :: B).Nodup)
    (hn : getN st i = some n)
    (hprev : n.prev = A.getLast?) :
    (LLremove st i).items = st.items ∧
    (∀ j, (getN (LLremove st i) j).map LLNode.data
        = (getN st j).map LLNode.data) ∧
    isChainB (LLremove st i) (LLremove st i).head (A ++ B) = true := by
  obtain ⟨hA_nd, hiB_nd, hdisj⟩ := List.nodup_append.mp hnd
  obtain ⟨hiB, hB_nd⟩ := List.nodup_cons.mp hiB_nd
  have hiA : i ∉ A := fun h => hdisj h (List.mem_cons_self i B)
  rw [isChainB_eq_seg] at hch
  obtain ⟨m, hsegA, hsegiB⟩ := isChainSegB_append_iff.mp hch
  obtain ⟨hm, n₀, hn₀, hsegB⟩ := isChainSegB_cons_inv hsegiB
  subst hm
  rw [hn] at hn₀
  obtain rfl : n = n₀ := Option.some.inj hn₀
  rcases List.eq_nil_or_concat A with rfl | ⟨A', pid, hA⟩
  · have hp : n.prev = none := by simpa using hprev
    cases B with
    | nil =>
      have hx : n.next = none := isChainSegB_nil_inv hsegB
      rw [LLremove_eq_nn hn hp hx]
      refine ⟨rfl, fun j => ?_, ?_⟩
      · rw [getN_ht_upd]
        exact setN_keep_data hn none none j
      · rfl
    | cons nid B' =>
      obtain ⟨hmx, nn, hnn, hsegB'⟩ := isChainSegB_cons_inv hsegB
      have hni : nid ≠ i := by
        rintro rfl
        exact hiB (List.mem_cons_self nid B')
      rw [LLremove_eq_ns hn hp hmx hni hnn]
      have h1 : getN { setN st i { n with prev := none, next := none } with
          head := some nid } nid = some nn := by
        rw [getN_head_upd, getN_setN_ne hni, hnn]
      refine ⟨rfl, fun j => ?_, ?_⟩
      · rw [setN_keep_data h1 none nn.next j, getN_head_upd]
        exact setN_keep_data hn none none j
      · show isChainB _ (some nid) (nid :: B') = true
        rw [isChainB_eq_seg]
        rw [hmx] at hsegB
        refine isChainSegB_congr_next hsegB (fun j hj => ?_)
        have hji : j ≠ i := by
          rintro rfl
          exact hiB hj
        rw [setN_keep_next h1 none j, getN_head_upd, getN_setN_ne hji]
  · rw [List.concat_eq_append] at hA
    subst hA
    have hp : n.prev = some pid := by rw [hprev, List.getLast?_concat]
    have hpidA : pid ∈ A' ++ [pid] :=
      List.mem_append_right A' (List.mem_cons_self pid [])
    have hpi : pid ≠ i := by
      rintro rfl
      exact hiA hpidA
    have hpidB : pid ∉ B := fun h => hdisj hpidA (List.mem_cons_of_mem i h)
    obtain ⟨m2, hsegA', hsegPid⟩ := isChainSegB_append_iff.mp hsegA
    obtain ⟨hm2, pn, hpn, hsegNil⟩ := isChainSegB_cons_inv hsegPid
    subst hm2
    have hpA' : pid ∉ A' := by
      obtain ⟨_, _, hdisj2⟩ := List.nodup_append.mp hA_nd
      exact fun h => hdisj2 h (List.mem_cons_self pid [])
    have h1 : getN (setN st i { n with prev := none, next := none }) pid
        = some pn := by
      rw [getN_setN_ne hpi, hpn]
    cases B with
    | nil =>
      have hx : n.next = none := isChainSegB_nil_inv hsegB
      rw [LLremove_eq_sn hn hp hpi hpn hx]
      refine ⟨rfl, fun j => ?_, ?_⟩
      · rw [getN_tailF_upd, setN_keep_data h1 pn.prev none j]
        exact setN_keep_data hn none none j
      · rw [List.append_nil]
        show isChainB _ st.head (A' ++ [pid]) = true
        rw [isChainB_eq_seg]
        refine isChainSegB_append_iff.mpr ⟨some pid, ?_, ?_⟩
        · refine isChainSegB_congr_next hsegA' (fun j hj => ?_)
          have hji : j ≠ i := by
            rintro rfl
            exact hiA (List.mem_append_left _ hj)
          have hjp : j ≠ pid := by
            rintro rfl
            exact hpA' hj
          rw [getN_tailF_upd, getN_setN_ne hjp, getN_setN_ne hji]
        · have hpd : getN { setN (setN st i
              { n with prev := none, next := none }) pid
              { pn with next := none } with tailF := some pid } pid
              = some { pn with next := none } := by
            rw [getN_tailF_upd]
            exact getN_setN_self h1 _
          rw [isChainSegB_cons_some _ hpd, beq_self_eq_true, Bool.true_and,
            isChainSegB_nil]
          rfl
    | cons nid B' =>
      obtain ⟨hmx, nn, hnn, hsegB'⟩ := isChainSegB_cons_inv hsegB
      have hni : nid ≠ i := by
        rintro rfl
        exact hiB (List.mem_cons_self nid B')
      have hnp : nid ≠ pid := by
        rintro rfl
        exact hpidB (List.mem_cons_self nid B')
      rw [LLremove_eq_ss hn hp hpi hpn hmx hni hnp hnn]
      have h2 : getN (setN (setN st i { n with prev := none, next := none })
          pid { pn with next := some nid }) nid = some nn := by
        rw [getN_setN_ne hnp, getN_setN_ne hni, hnn]
      refine ⟨rfl, fun j => ?_, ?_⟩
      · rw [setN_keep_data h2 (some pid) nn.next j, setN_keep_data h1 pn.prev (some nid) j]
        exact setN_keep_data hn none none j
      · show isChainB _ st.head ((A' ++ [pid]) ++ nid :: B') = true
        rw [isChainB_eq_seg]
        refine isChainSegB_append_iff.mpr
          ⟨some nid, isChainSegB_append_iff.mpr ⟨some pid, ?_, ?_⟩, ?_⟩
        · refine isChainSegB_congr_next hsegA' (fun j hj => ?_)
          have hji : j ≠ i := by
            rintro rfl
            exact hiA (List.mem_append_left _ hj)
          have hjp : j ≠ pid := by
            rintro rfl
            exact hpA' hj
          rw [setN_keep_next h2 (some pid) j, getN_setN_ne hjp, getN_setN_ne hji]
        · have hpd : getN (setN (setN (setN st i
              { n with prev := none, next := none }) pid
              { pn with next := some nid }) nid { nn with prev := some pid })
              pid = some { pn with next := some nid } := by
            rw [getN_setN_ne hnp.symm]
            exact getN_setN_self h1 _
          rw [isChainSegB_cons_some _ hpd, beq_self_eq_true, Bool.true_and,
            isChainSegB_nil]
          exact beq_self_eq_true _
        · rw [hmx] at hsegB
          refine isChainSegB_congr_next hsegB (fun j hj => ?_)
          have hji : j ≠ i := by
            rintro rfl
            exact hiB hj
          have hjp : j ≠ pid := by
            rintro rfl
            exact hpidB hj
          rw [setN_keep_next h2 (some pid) j, getN_setN_ne hjp, getN_setN_ne hji]

/-! ## Concrete scenarios for `merge_unused` and `remove` -/

/-- A `[0x00, 0x0A)` layout: three unused blocks appended in order, then the
used block `(4,1)` appended last, so `append_mem_block` places it between
`(0,2)` and `(6,1)` via `insert_after` — which leaves the `(6,1)` node's
`_prev` still pointing at the `(0,2)` node. -/
def c3Build : Except PyErr MemoryLayoutLL := do
  let l0 := mkMemoryLayoutLL 0 10
  let l1 ← appendMemBlockLL l0 ⟨0, 2, none, true⟩
  let l2 ← appendMemBlockLL l1 ⟨6, 1, none, true⟩
  let l3 ← appendMemBlockLL l2 ⟨8, 2, none, true⟩
  appendMemBlockLL l3 ⟨4, 1, none, false⟩

/-- A `[0x00, 0x08)` layout whose two appended unused blocks are coalesced by
one `merge_unused` pass. -/
def c10Merged : Except PyErr MemoryLayoutLL := do
  let l0 := mkMemoryLayoutLL 0 8
  let l1 ← appendMemBlockLL l0 ⟨0, 4, none, true⟩
  let l2 ← appendMemBlockLL l1 ⟨4, 4, none, true⟩
  mergeUnusedLL 20 l2

/-- The same `[0x00, 0x08)` layout with the merged block appended directly. -/
def c10Direct : Except PyErr MemoryLayoutLL :=
  appendMemBlockLL (mkMemoryLayoutLL 0 8) ⟨0, 8, some "", true⟩

/-- A three-element list `10, 20, 30` where `20` was placed by
`insert_after`, so the `30` node's `_prev` still names the `10` node. -/
def c10Stale : Except PyErr (PyLinkedList Nat) := do
  let s1 ← LLappend {} 10
  let s2 ← LLappend s1 30
  .ok (LLinsert_after s2 0 20).1

/-- A three-element list `"a", "b", "c"` as built by
`LinkedList.from_list` (three `append` calls): every `_prev` is accurate. -/
def c10Wst : PyLinkedList String :=
  { store := [⟨"a", none, some 1⟩, ⟨"b", some 0, some 2⟩, ⟨"c", some 1, none⟩],
    head := some 0, tailF := some 2, items := [0, 1, 2] }

/-- **C3.** The claim says one `merge_unused()` pass coalesces every run of
consecutive unused blocks into a single spanning block (leaving used blocks
alone) and that a second pass then changes nothing.  The code does neither,
and its own docstring ("Merges all neighboring unused memory blocks in one")
confirms the intent: on the `c3Build` layout the first pass *drops the used
block* `(4,1)` — `insert_after` left the `(6,1)` node's `_prev` pointing at
the `(0,2)` node, so the merged block is linked in *before* `(4,1)`'s
position and the forward chain bypasses it — and leaves the two remaining
unused blocks `(0,2)` and `(6,4)` adjacent, which a second pass then merges
into `(0,10)`: the block sequence after two passes differs from the sequence
after one. -/
theorem claim_C3_merge_unused_bug :
    c3Build.map (fun ml => LLtoList ml.regions) =
      .ok [⟨0, 2, none, true⟩, ⟨4, 1, none, false⟩,
           ⟨6, 1, none, true⟩, ⟨8, 2, none, true⟩] ∧
    (c3Build.bind (mergeUnusedLL 20)).map (fun ml => LLtoList ml.regions) =
      .ok [⟨0, 2, none, true⟩, ⟨6, 4, some "", true⟩] ∧
    ((c3Build.bind (mergeUnusedLL 20)).bind (mergeUnusedLL 20)).map
        (fun ml => LLtoList ml.regions) =
      .ok [⟨0, 10, some "", true⟩] ∧
    (c3Build.bind (mergeUnusedLL 20)).map (fun ml => LLtoList ml.regions) ≠
      ((c3Build.bind (mergeUnusedLL 20)).bind (mergeUnusedLL 20)).map
        (fun ml => LLtoList ml.regions) := by
  refine ⟨?_, ?_, ?_, ?_⟩ <;> decide

/-- **C10** (counterexample).  The claim asserts that for *every* item
reachable from the head, `remove(item)` shortens `to_list()` by exactly one.
In `c10Stale` the `30` node (id 1) is reachable from the head
(`0 → 2 → 1`), yet removing it shortens `to_list()` from three elements to
one: `remove` follows the node's stale `_prev` (left unmaintained by
`insert_after`) and splices the predecessor `10` directly to `None`,
orphaning the `20` node as well.  `count()` is unchanged, as claimed. -/
theorem claim_C10_counterexample :
    c10Stale.map (fun st => LLtoList st) = .ok [10, 20, 30] ∧
    c10Stale.map (fun st => isChainB st st.head [0, 2, 1]) = .ok true ∧
    c10Stale.map (fun st => LLtoList (LLremove st 1)) = .ok [10] ∧
    c10Stale.map (fun st => (LLcount st, LLcount (LLremove st 1))) =
      .ok (3, 3) := by
  refine ⟨?_, ?_, ?_, ?_⟩ <;> decide

/-- **C10** (amended).  `remove` on a chain node whose `_prev` pointer is
accurate (its actual chain predecessor — true for lists built by `append`
and `insert_before`, but not behind `insert_after`) leaves `count()`
unchanged while `to_list()` loses exactly the removed node's data; and for
the concrete coalesced layout `c10Merged`, `regions.count()` (3) strictly
exceeds the `to_list()` length (1), so layout equality — which compares
`count()` — reports `False` against `c10Direct` even though the two block
sequences are identical. -/
theorem claim_C10_remove_count (st : PyLinkedList α) (A B : List Nat)
    (i : Nat) (n : LLNode α)
    (hch : isChainB st st.head (A ++ i :: B) = true)
    (hnd : (A ++ i :: B).Nodup)
    (hn : getN st i = some n)
    (hprev : n.prev = A.getLast?) :
    LLcount (LLremove st i) = LLcount st ∧
    LLtoList st = chainData st A ++ n.data :: chainData st B ∧
    LLtoList (LLremove st i) = chainData st A ++ chainData st B ∧
    c10Merged.map (fun ml => ((LLtoList ml.regions).length, LLcount ml.regions))
      = .ok (1, 3) ∧
    c10Merged.map (fun ml => LLtoList ml.regions)
      = c10Direct.map (fun ml => LLtoList ml.regions) ∧
    c10Merged.bind (fun a => c10Direct.bind (fun b => layoutEqLLPy a b))
      = .ok false := by
  obtain ⟨hitems, hdata, hchain⟩ := LLremove_spec hch hnd hn hprev
  have hnd' : (A ++ B).Nodup :=
    ((List.sublist_cons_self i B).append_left A).nodup hnd
  refine ⟨?_, ?_, ?_, by decide, by decide, by decide⟩
  · show (LLremove st i).items.length = st.items.length
    rw [hitems]
  · rw [LLtoList_eq_chainData hch hnd]
    simp [chainData, List.filterMap_append, List.filterMap_cons, hn]
  · rw [LLtoList_eq_chainData hchain hnd',
      chainData_congr (fun j _ => hdata j)]
    simp [chainData, List.filterMap_append]

/-- Witness for the amended C10 theorem: the accurate three-node list
`"a", "b", "c"` (exactly `LinkedList.from_list`'s result), removing the
middle node. -/
theorem claim_C10_witness :
    (LLfromList ["a", "b", "c"] : Except PyErr (PyLinkedList String)) =
      .ok c10Wst ∧
    isChainB c10Wst c10Wst.head ([0] ++ 1 :: [2]) = true ∧
    ([0] ++ 1 :: [2] : List Nat).Nodup ∧
    getN c10Wst 1 = some ⟨"b", some 0, some 2⟩ ∧
    (⟨"b", some 0, some 2⟩ : LLNode String).prev = [0].getLast? ∧
    LLtoList (LLremove c10Wst 1) =
      chainData c10Wst [0] ++ chainData c10Wst [2] :=
  ⟨by decide, by decide, by decide, by decide, by decide,
    (claim_C10_remove_count c10Wst [0] [2] 1 ⟨"b", some 0, some 2⟩
      (by decide) (by decide) (by decide) (by decide)).2.2.1⟩
